import Mathlib

/-
Verification of the fbarc crawl engine (fbarc.py) against its specification.

The engine is embedded shallowly:
- JSON-like Graph API fragments become the inductive type GValue;
- the per-type Definition objects (class Definition) are abstracted to the
  compiled record that the crawl code actually consults (edge partitions,
  edge types, follow flags, node_batch_size); the process-wide definition
  cache (Fbarc.get_definition) becomes a total map from type names;
- network calls are oracles: a fetch oracle for node requests, a page oracle
  mapping continuation links to page bodies, and a transport oracle for the
  retry layer;
- uncaught Python exceptions (KeyError, AssertionError) are modelled as
  Option/Except failure values;
- the in-place mutation performed by find_paging_links and merge_page
  (detaching paging blocks and extending aliased data lists) is modelled by
  paths into a functional tree: a pending page carries the path of its
  target data array inside the record being resolved;
- recursion over GValue is implemented with an explicit fuel argument that
  strictly exceeds the nesting depth (sizeOf is always sufficient), keeping
  every definition kernel-reducible so closed instances evaluate.
-/

namespace Fbarc

/-- JSON-like values returned by the Graph API: the GraphRecord fragments of
the data model (strings, numbers, booleans, null, arrays, objects). Objects
keep their fields as an ordered association list, mirroring Python dict
insertion order. -/
inductive GValue where
  | null : GValue
  | bool (b : Bool) : GValue
  | num (n : Int) : GValue
  | str (s : String) : GValue
  | arr (items : List GValue) : GValue
  | obj (fields : List (String × GValue)) : GValue

/-- Association-list lookup, mirroring Python dict indexing (first match). -/
def lookupList {α : Type} : List (String × α) → String → Option α
  | [], _ => none
  | (k2, v) :: rest, k => if k2 = k then some v else lookupList rest k

/-- Replace the value stored under a key, keeping order; used to model
in-place assignment into a dict whose key is already present. -/
def setKey {α : Type} : List (String × α) → String → α → List (String × α)
  | [], _, _ => []
  | (k2, v2) :: rest, k, v => if k2 = k then (k2, v) :: rest else (k2, v2) :: setKey rest k v

/-- Dict-style lookup on a GValue; returns none when the value is not an
object (where Python would raise or answer False to a containment test). -/
def GValue.get? (g : GValue) (k : String) : Option GValue :=
  match g with
  | .obj fs => lookupList fs k
  | _ => none

/-- One step into a GValue tree: an object key or an array index. -/
inductive PathStep where
  | key (k : String) : PathStep
  | idx (i : Nat) : PathStep
deriving Repr, DecidableEq

/-- A location inside a GValue tree. Python passes aliased references to the
mutable data lists; the functional embedding identifies the same containers
by their paths from the root of the record being resolved. -/
abbrev Path := List PathStep

/-- Read the value at a path. -/
def GValue.getPath : GValue → Path → Option GValue
  | g, [] => some g
  | .obj fs, .key k :: p => match lookupList fs k with
    | some v => GValue.getPath v p
    | none => none
  | .arr xs, .idx i :: p => match xs.get? i with
    | some v => GValue.getPath v p
    | none => none
  | _, _ => none

/-- Replace the value at a path (the path must exist). Models an in-place
update through an aliased reference. -/
def GValue.setPath : GValue → Path → GValue → Option GValue
  | _, [], v => some v
  | .obj fs, .key k :: p, v => match lookupList fs k with
    | some cur => match GValue.setPath cur p v with
      | some cur2 => some (.obj (setKey fs k cur2))
      | none => none
    | none => none
  | .arr xs, .idx i :: p, v => match xs.get? i with
    | some cur => match GValue.setPath cur p v with
      | some cur2 => some (.arr (xs.set i cur2))
      | none => none
    | none => none
  | _, _, _ => none

/-- The compiled per-type definition, as consulted by the crawl engine: the
default/on-demand edge partitions, the edge-to-target-type map
(Definition.get_edge_type), the traversal flags (Definition.should_follow_edge)
and the multi-node fetch batch size. Scalar field sets, page sizes, the
error-omission table and CSV projections exist in the source class but are
not consulted by the scheduler logic under verification. -/
structure Definition where
  default_edges : List String
  edges : List String
  edge_type : String → String
  follow_edge : String → Bool
  node_batch_size : Nat

/-- The process-wide definition table (Fbarc.get_definition with its cache),
abstracted to a total map from type names to compiled definitions. -/
abbrev Defs := String → Definition

/-- A queued crawl task: (node id, definition name, level), level 1 = root. -/
structure CrawlTask where
  node_id : String
  definition_name : String
  level : Nat
deriving Repr, DecidableEq

/-- Read the id field of a discovered node. Python writes node['id'], an
uncaught KeyError when absent; ids are strings in the Graph API, and a
missing or non-string id is modelled as a failure. -/
def getIdStr (g : GValue) : Option String :=
  match g.get? "id" with
  | some (.str i) => some i
  | _ => none

/-- Fbarc.find_connected_nodes: walk the declared (followed) edges of a
fragment, collecting (node id, edge type) pairs in source order; an edge
value holding a data array is a paginated collection, otherwise it is a
single node; both are recursively scanned with the edge type's own
definition and default_only = true, exactly as the source recursion.
none models an uncaught exception (missing id, or a data value that is not
an array, which Python would crash iterating). The extra fuel argument
bounds the recursion depth, a modelling artifact: Python recursion is
unbounded, and any fuel exceeding the nesting depth of the fragment gives
the source behaviour. -/
def find_connected_nodes (defs : Defs) :
    Nat → String → GValue → Bool → Option (List (String × String))
  | 0, _, _, _ => none
  | f + 1, definition_name, g, default_only =>
    let d := defs definition_name
    let edgeNames := d.default_edges ++ (if default_only then [] else d.edges)
    edgeNames.foldlM
      (fun acc e =>
        if d.follow_edge e then
          match g.get? e with
          | some sub =>
            match sub.get? "data" with
            | some (.arr ns) => do
              let groups ← ns.mapM (fun n => do
                let i ← getIdStr n
                let tail ← find_connected_nodes defs f (d.edge_type e) n true
                pure ((i, d.edge_type e) :: tail))
              pure (acc ++ groups.flatten)
            | some _ => none
            | none => do
              let i ← getIdStr sub
              let tail ← find_connected_nodes defs f (d.edge_type e) sub true
              pure (acc ++ (i, d.edge_type e) :: tail)
          | none => pure acc
        else pure acc)
      []

/-- Observable scheduler actions, recorded in order: enq is an append of a
task to the node queue (including the root seed), emit is a yield of a
completed node record to the caller (which hands it to every active sink). -/
inductive Event where
  | enq (t : CrawlTask) : Event
  | emit (node_id : String) : Event
deriving Repr, DecidableEq

/-- The mutable state owned by one crawl run: the FIFO node queue, the
queued_nodes set (every id ever enqueued), the ordered trace of observable
actions, and a failure flag modelling an uncaught exception aborting the
run. The per-type node_counter of the source only feeds log messages and is
omitted. -/
structure CrawlState where
  node_queue : List CrawlTask
  queued_nodes : List String
  trace : List Event
  failed : Bool
deriving Repr, DecidableEq

/-- The discovery guard of Fbarc._get_nodes line: levels == 0 or
level < levels. -/
def discovery_allowed (levels level : Nat) : Bool :=
  levels == 0 || level < levels

/-- One connected-node candidate: enqueue it unless its id was ever queued
before or its definition name is excluded (the source also tolerates a None
definition name, which find_connected_nodes can never produce since every
edge carries an edge_type string). -/
def enqueue_connected (exclude : List String) (level : Nat)
    (s : CrawlState) (c : String × String) : CrawlState :=
  if c.1 ∉ s.queued_nodes ∧ c.2 ∉ exclude then
    { s with
      node_queue := s.node_queue ++ [⟨c.1, c.2, level + 1⟩],
      queued_nodes := s.queued_nodes ++ [c.1],
      trace := s.trace ++ [.enq ⟨c.1, c.2, level + 1⟩] }
  else s

/-- The discovery block of Fbarc._get_nodes for one record: when the
discovery guard holds, find connected nodes and enqueue the fresh,
non-excluded ones; a discovery failure (uncaught exception) sets the
failure flag. dfuel is the discovery recursion fuel
(see find_connected_nodes). -/
def discover_node (defs : Defs) (dfuel : Nat) (exclude : List String) (levels : Nat)
    (definition_name : String) (level : Nat)
    (s : CrawlState) (g : GValue) : CrawlState :=
  if discovery_allowed levels level then
    match find_connected_nodes defs dfuel definition_name g false with
    | none => { s with failed := true }
    | some conns => conns.foldl (enqueue_connected exclude level) s
  else s

/-- Handling of one (node id, record) pair of the fetched batch inside
Fbarc._get_nodes: first the discovery block, then the yield of the record.
In the source the enqueueing for a record happens before that record is
yielded; an aborted discovery yields nothing. -/
def process_node (defs : Defs) (dfuel : Nat) (exclude : List String) (levels : Nat)
    (definition_name : String) (level : Nat)
    (s : CrawlState) (item : String × GValue) : CrawlState :=
  if s.failed then s
  else if (discover_node defs dfuel exclude levels definition_name level s item.2).failed then
    discover_node defs dfuel exclude levels definition_name level s item.2
  else
    { discover_node defs dfuel exclude levels definition_name level s item.2 with
      trace := (discover_node defs dfuel exclude levels definition_name level s item.2).trace
        ++ [.emit item.1] }

/-- Handling of the whole fetched batch, in response order. -/
def process_batch (defs : Defs) (dfuel : Nat) (exclude : List String) (levels : Nat)
    (definition_name : String) (level : Nat)
    (s : CrawlState) (items : List (String × GValue)) : CrawlState :=
  items.foldl (process_node defs dfuel exclude levels definition_name level) s

/-- The inner loop of Fbarc.node_queue_iter after the first pop: keep
popping while the head of the queue matches the current definition name and
level and the batch has not reached the popped type's node_batch_size;
return the batch (ids, definition name, level) and the remaining queue. -/
def nextBatchGo (defs : Defs) :
    List String → CrawlTask → List CrawlTask → (List String × String × Nat) × List CrawlTask
  | node_ids, t, [] => ((node_ids ++ [t.node_id], t.definition_name, t.level), [])
  | node_ids, t, t2 :: rest =>
    let ids2 := node_ids ++ [t.node_id]
    if t2.definition_name ≠ t.definition_name ∨ t2.level ≠ t.level ∨
        ids2.length = (defs t.definition_name).node_batch_size then
      ((ids2, t.definition_name, t.level), t2 :: rest)
    else
      nextBatchGo defs ids2 t2 rest

/-- Fuel-indexed iteration of Fbarc.node_queue_iter over a fixed queue with
no concurrent appends: the list of yielded batches. Fuel at least the queue
length suffices since every batch pops at least one task. -/
def node_queue_iter_aux (defs : Defs) : Nat → List CrawlTask → List (List String × String × Nat)
  | 0, _ => []
  | _ + 1, [] => []
  | f + 1, t :: rest =>
    let b := nextBatchGo defs [] t rest
    b.1 :: node_queue_iter_aux defs f b.2

/-- Fbarc.node_queue_iter run to exhaustion over a fixed queue. -/
def node_queue_iter (defs : Defs) (q : List CrawlTask) : List (List String × String × Nat) :=
  node_queue_iter_aux defs q.length q

/-- One iteration of the Fbarc._get_nodes loop: pop the next batch from the
queue front, fetch it (the fetch oracle abstracts get_node for singleton
batches and get_node_batch otherwise, returning the id-to-record response
map), and process every returned record. none when the queue is empty (the
generator is exhausted) or a previous iteration failed. -/
def crawl_step (defs : Defs) (dfuel : Nat)
    (fetch : List String → String → List (String × GValue))
    (exclude : List String) (levels : Nat) (s : CrawlState) : Option CrawlState :=
  if s.failed then none
  else
    match s.node_queue with
    | [] => none
    | t :: rest =>
      let b := nextBatchGo defs [] t rest
      some (process_batch defs dfuel exclude levels b.1.2.1 b.1.2.2
        { s with node_queue := b.2 } (fetch b.1.1 b.1.2.1))

/-- Run up to fuel iterations of the Fbarc._get_nodes loop. -/
def crawl_steps (defs : Defs) (dfuel : Nat)
    (fetch : List String → String → List (String × GValue))
    (exclude : List String) (levels : Nat) : Nat → CrawlState → CrawlState
  | 0, s => s
  | f + 1, s =>
    match crawl_step defs dfuel fetch exclude levels s with
    | none => s
    | some s2 => crawl_steps defs dfuel fetch exclude levels f s2

/-- The initial state built by Fbarc.get_nodes: the root task queued at
level 1 and its id inserted into queued_nodes. -/
def get_nodes_init (root_node_id root_definition_name : String) : CrawlState :=
  { node_queue := [⟨root_node_id, root_definition_name, 1⟩],
    queued_nodes := [root_node_id],
    trace := [.enq ⟨root_node_id, root_definition_name, 1⟩],
    failed := false }

/-- The ids of all tasks ever appended to the node queue, in append order,
read off the trace. -/
def enqueuedIds (tr : List Event) : List String :=
  tr.filterMap (fun e => match e with | .enq t => some t.node_id | .emit _ => none)

/-- The tasks ever appended to the node queue, in append order. -/
def enqueuedTasks (tr : List Event) : List CrawlTask :=
  tr.filterMap (fun e => match e with | .enq t => some t | .emit _ => none)

/-- PAGE_BATCH_SIZE, the fixed page-batch cap of the source. -/
def PAGE_BATCH_SIZE : Nat := 50

/-- The continuation link recorded for a dict that carries a paging block:
(paging next link, path of the sibling data container). Empty when the
paging block has no next entry of string type (the source would enqueue a
non-string next value and crash later in the transport layer; such values
never occur in responses and are modelled as absent). -/
def pagingNextOf (fs : List (String × GValue)) : List (String × Path) :=
  match lookupList fs "paging" with
  | some pg =>
    match pg.get? "next" with
    | some (.str l) => [(l, [PathStep.key "data"])]
    | _ => []
  | none => []

/-- Prefix every collected link path with the key of the field it was found
under. -/
def underKey (k : String) (links : List (String × Path)) : List (String × Path) :=
  links.map (fun w => (w.1, PathStep.key k :: w.2))

/-- Concatenate per-element link lists of an array, prefixing each with its
element index. -/
def underIdx (ls : List (List (String × Path))) : List (String × Path) :=
  (ls.enum.map (fun p => p.2.map (fun w => (w.1, PathStep.idx p.1 :: w.2)))).flatten

/-- Fbarc.find_paging_links: recursively scan a fragment; every dict
carrying a paging key must have a data sibling (the source assert), its
paging block is detached (never emitted) and, when paging has a next link,
the pair (link, data container) is recorded; then all remaining dict values
and all array elements are scanned, in order. Returns the stripped fragment
together with the recorded (link, container path) pairs; none models the
AssertionError. The fuel argument bounds recursion depth (any fuel
exceeding the fragment's nesting depth gives the source behaviour). -/
def find_paging_links : Nat → GValue → Option (GValue × List (String × Path))
  | 0, _ => none
  | f + 1, .obj fs =>
    if (lookupList fs "paging").isSome && (lookupList fs "data").isNone then none
    else do
      let results ← (fs.filter (fun p => p.1 ≠ "paging")).mapM
        (fun p => do
          let r ← find_paging_links f p.2
          pure (p.1, r))
      pure (GValue.obj (results.map (fun q => (q.1, q.2.1))),
        pagingNextOf fs ++
          (results.map (fun q => underKey q.1 q.2.2)).flatten)
  | f + 1, .arr xs => do
    let results ← xs.mapM (find_paging_links f)
    pure (GValue.arr (results.map (fun r => r.1)), underIdx (results.map (fun r => r.2)))
  | _ + 1, g => pure (g, [])

/-- Whether the find_paging_links scan of a fragment succeeds: every dict it
visits that has a paging key also has a data sibling (dicts inside a
detached paging block are not visited). Same fuel convention as
find_paging_links. -/
def pagingOk : Nat → GValue → Bool
  | 0, _ => false
  | f + 1, .obj fs =>
    if (lookupList fs "paging").isSome && (lookupList fs "data").isNone then false
    else (fs.filter (fun p => p.1 ≠ "paging")).all (fun p => pagingOk f p.2)
  | f + 1, .arr xs => xs.all (pagingOk f)
  | _ + 1, _ => true

/-- Whether a fragment contains, at any nesting depth (including inside
paging blocks), a dict with a paging key but no sibling data key. This is
the shape predicate named by the claim, written from its words for
comparison with what the code actually checks. -/
def containsPagingWithoutData : Nat → GValue → Bool
  | 0, _ => false
  | f + 1, .obj fs =>
    ((lookupList fs "paging").isSome && (lookupList fs "data").isNone) ||
      fs.any (fun p => containsPagingWithoutData f p.2)
  | f + 1, .arr xs => xs.any (containsPagingWithoutData f)
  | _ + 1, _ => false

/-- Whether no paging key occurs anywhere in a fragment. -/
def noPaging : Nat → GValue → Bool
  | 0, _ => false
  | f + 1, .obj fs =>
    (lookupList fs "paging").isNone && fs.all (fun p => noPaging f p.2)
  | f + 1, .arr xs => xs.all (noPaging f)
  | _ + 1, _ => true

/-- Shift a link path found inside a page's data array by the length the
target container had before the page was appended: after the in-place
extend, element i of the page's data lives at index off + i of the target. -/
def reindexPath (off : Nat) : Path → Path
  | PathStep.idx i :: p => PathStep.idx (off + i) :: p
  | p => p

/-- The continuation recorded for a page's own root paging.next inside
Fbarc.merge_page: its target is the same container the page was merged
into. -/
def merge_page_root_pages (page : GValue) (targetPath : Path) : List (String × Path) :=
  match (page.get? "paging").bind (fun pg => pg.get? "next") with
  | some (.str l) => [(l, targetPath)]
  | _ => []

/-- Fbarc.merge_page: merge a fetched page into the record being resolved.
Collect a continuation for the page's own root paging.next (its target is
the same container), scan the page's data for nested paging links, then
append the (stripped) data elements to the target container; nested links
are re-rooted at the target path with their indices shifted. none models an
uncaught exception (page without a data key, a data value that is not a
list, or a dangling target path). pfuel is the scan fuel. -/
def merge_page (pfuel : Nat) (page root : GValue) (targetPath : Path) :
    Option (GValue × List (String × Path)) :=
  let rootPages : List (String × Path) := merge_page_root_pages page targetPath
  match page.get? "data" with
  | none => none
  | some dataVal =>
    match find_paging_links pfuel dataVal with
    | none => none
    | some (stripped, nested) =>
      match stripped with
      | .arr items =>
        match root.getPath targetPath with
        | some (.arr old) =>
          match root.setPath targetPath (.arr (old ++ items)) with
          | some root2 =>
            some (root2, rootPages ++ nested.map (fun w => (w.1, targetPath ++ reindexPath old.length w.2)))
          | none => none
        | _ => none
      | _ => none

/-- Fbarc.get_page_batch: resolve a drained list of pending pages in
request order through the page oracle (one combined batch request; the
source falls back to a lone get_page on a per-page batch failure, and
get_page swallows a remote error, dropping the page with a warning — the
oracle answering none models exactly that dropped-page outcome). Returns
the updated record and the newly discovered pending pages. -/
def get_page_batch_model (oracle : String → Option GValue) (pfuel : Nat) :
    GValue → List (String × Path) → Option (GValue × List (String × Path))
  | root, [] => some (root, [])
  | root, (link, path) :: rest =>
    match oracle link with
    | none => get_page_batch_model oracle pfuel root rest
    | some page =>
      match merge_page pfuel page root path with
      | none => none
      | some (root2, new) =>
        match get_page_batch_model oracle pfuel root2 rest with
        | none => none
        | some (root3, more) => some (root3, new ++ more)

/-- One drain of the pending-page queue: pop min(cap, queue length) pages
from the front, exactly the source loop
for _ in range(min(cap, len(paging_queue))): paging_queue.popleft(). -/
def drainTake {α : Type} (cap : Nat) (q : List α) : List α × List α :=
  (q.take (min cap q.length), q.drop (min cap q.length))

/-- The page-resolution loop shared by Fbarc.get_node and
Fbarc.get_node_batch: while pages are pending, drain up to cap of them,
resolve the drained batch with one combined request, and append the newly
found pages to the queue. Also returns the drained batch sizes in request
order. fuel bounds the number of loop iterations (unbounded in Python). -/
def resolve_pages (oracle : String → Option GValue) (pfuel cap : Nat) :
    Nat → GValue → List (String × Path) → Option (GValue × List Nat)
  | 0, root, q => if q.isEmpty then some (root, []) else none
  | f + 1, root, q =>
    if q.isEmpty then some (root, [])
    else
      let d := drainTake cap q
      match get_page_batch_model oracle pfuel root d.1 with
      | none => none
      | some (root2, new) =>
        match resolve_pages oracle pfuel cap f root2 (d.2 ++ new) with
        | none => none
        | some (res, sizes) => some (res, d.1.length :: sizes)

/-- Fbarc.get_node, from the point where the node's response body is in
hand (the transport and the omit-fields retry are upstream): scan the
record for paging links, then resolve the pending-page queue with the
fixed cap PAGE_BATCH_SIZE. Returns the fully resolved record and the
drained batch sizes. -/
def get_node_model (oracle : String → Option GValue) (pfuel lfuel : Nat)
    (node_graph : GValue) : Option (GValue × List Nat) :=
  match find_paging_links pfuel node_graph with
  | none => none
  | some (g, q) => resolve_pages oracle pfuel PAGE_BATCH_SIZE lfuel g q

/-- The per-id scan loop of Fbarc.get_node_batch: walk the requested ids in
order; an id present in the response map has its record scanned for paging
links (rooted under its key); a missing id is logged and skipped. Returns
the response map with scanned records stripped, and the pending pages. -/
def batch_scan (pfuel : Nat) :
    List String → List (String × GValue) → Option (List (String × GValue) × List (String × Path))
  | [], response => some (response, [])
  | i :: rest, response =>
    match lookupList response i with
    | some g =>
      match find_paging_links pfuel g with
      | none => none
      | some (g2, links) =>
        match batch_scan pfuel rest (setKey response i g2) with
        | none => none
        | some (resp2, links2) => some (resp2, underKey i links ++ links2)
    | none => batch_scan pfuel rest response

/-- Fbarc.get_node_batch, from the point where the multi-node response map
is in hand, on its non-degraded path (the fallback that refetches ids one
at a time on a too-much-data or omittable error is upstream): scan each
requested id present in the response, then resolve the pending-page queue
with cap definition.node_batch_size. Returns the response map (the source
returns the response dict itself, with records resolved in place) and the
drained batch sizes. -/
def get_node_batch_model (defs : Defs) (definition_name : String)
    (oracle : String → Option GValue) (pfuel lfuel : Nat)
    (node_ids : List String) (response : List (String × GValue)) :
    Option (List (String × GValue) × List Nat) :=
  match batch_scan pfuel node_ids response with
  | none => none
  | some (resp2, q) =>
    match resolve_pages oracle pfuel (defs definition_name).node_batch_size lfuel (.obj resp2) q with
    | none => none
    | some (res, sizes) =>
      match res with
      | .obj out => some (out, sizes)
      | _ => none

/-- The classified outcome of one HTTP request, as produced by
raise_for_fb_exception: a parsed 200 body; an HTTPError for a non-200
status whose body is not a JSON protocol error; a connection-level failure;
or an FbException built from a JSON protocol-error body (carrying code,
error_subcode and is_transient, any of which may be absent). -/
inductive TransportResult where
  | ok (body : GValue) : TransportResult
  | httpStatus (code : Nat) : TransportResult
  | connError : TransportResult
  | fbError (code subcode : Option Int) (is_transient : Bool) : TransportResult

/-- Fbarc.get_errors_limit as set in Fbarc.__init__. -/
def get_errors_limit : Nat := 10

/-- Fbarc.get_too_much_data_errors_limit as set in Fbarc.__init__. -/
def get_too_much_data_errors_limit : Nat := 4

/-- The shared retry loop of Fbarc._perform_http_get and
Fbarc._perform_http_post (their bodies are identical up to the HTTP verb
and the params/data keyword, both absorbed by the transport oracle, which
answers the try_count-th request). Connection errors and retryable HTTP
statuses (408, 503, 504) are retried until get_errors_limit tries; a
transient protocol error, the (code 100, subcode 33) GraphMethodException,
or the too-much-data error code 1 is retried likewise, except that code 1
is additionally capped at get_too_much_data_errors_limit tries; anything
else propagates at once. Returns the outcome together with the total
number of requests issued; the fuel bounds recursion (Python recursion is
unbounded) and none marks exhaustion. -/
def perform_http_request (transport : Nat → TransportResult) :
    Nat → Nat → Option (Except TransportResult GValue × Nat)
  | 0, _ => none
  | f + 1, try_count =>
    match transport try_count with
    | .ok body => some (.ok body, try_count)
    | .connError =>
      if get_errors_limit = try_count then some (.error .connError, try_count)
      else perform_http_request transport f (try_count + 1)
    | .httpStatus c =>
      if c = 408 ∨ c = 503 ∨ c = 504 then
        if get_errors_limit = try_count then some (.error (.httpStatus c), try_count)
        else perform_http_request transport f (try_count + 1)
      else some (.error (.httpStatus c), try_count)
    | .fbError code subcode tr =>
      if tr ∨ (code = some 100 ∧ subcode = some 33) ∨ code = some 1 then
        if code = some 1 ∧ get_too_much_data_errors_limit = try_count then
          some (.error (.fbError code subcode tr), try_count)
        else if get_errors_limit = try_count then
          some (.error (.fbError code subcode tr), try_count)
        else perform_http_request transport f (try_count + 1)
      else some (.error (.fbError code subcode tr), try_count)

/-- Fbarc._perform_http_get (entered at try_count 1). -/
def perform_http_get (transport : Nat → TransportResult) (fuel : Nat) :
    Option (Except TransportResult GValue × Nat) :=
  perform_http_request transport fuel 1

/-- Fbarc._perform_http_post (entered at try_count 1); the source body is
the same retry loop as the GET variant. -/
def perform_http_post (transport : Nat → TransportResult) (fuel : Nat) :
    Option (Except TransportResult GValue × Nat) :=
  perform_http_request transport fuel 1

/-- Whether a transport outcome is a retryable HTTP status (408, 503, 504
with a non-JSON body). -/
def isRetryStatus : TransportResult → Bool
  | .httpStatus c => c = 408 ∨ c = 503 ∨ c = 504
  | _ => false

/-- The state reconstructed by Fbarc.resume while replaying a checkpoint
file: the ordered pending-task map node_queue_dict, the queued_nodes set,
and (for bookkeeping of the dedup argument) the ordered list of every task
ever added to the pending map. The per-type counter only feeds logging and
is omitted. -/
structure ResumeState where
  node_queue_dict : List (String × CrawlTask)
  queued_nodes : List String
  added_log : List CrawlTask
deriving Repr, DecidableEq

/-- Candidate handling inside the resume replay: a connected node is added
to the pending map unless its id was ever queued, its definition name is
excluded, or it is already pending. -/
def resume_enqueue_connected (exclude : List String) (level : Nat)
    (s : ResumeState) (c : String × String) : ResumeState :=
  if c.1 ∉ s.queued_nodes ∧ c.2 ∉ exclude ∧ (lookupList s.node_queue_dict c.1).isNone then
    { s with
      node_queue_dict := s.node_queue_dict ++ [(c.1, ⟨c.1, c.2, level + 1⟩)],
      queued_nodes := s.queued_nodes ++ [c.1],
      added_log := s.added_log ++ [⟨c.1, c.2, level + 1⟩] }
  else s

/-- Replay of one checkpoint line inside Fbarc.resume: read the record's
id (an uncaught KeyError when absent); on the first line additionally read
metadata.type and seed the root task at level 1; then, if the id is
pending, resolve it and rediscover its connections exactly as live
discovery does, adding the fresh ones at level + 1. The Except error
carries the uncaught-exception message. -/
def resume_line (defs : Defs) (dfuel : Nat) (exclude : List String) (levels : Nat)
    (isFirst : Bool) (s : ResumeState) (g : GValue) : Except String ResumeState :=
  match getIdStr g with
  | none => .error "KeyError: id"
  | some node_id =>
    let seeded : Except String ResumeState :=
      match isFirst with
      | true =>
        match (g.get? "metadata").bind (fun m => m.get? "type") with
        | some (.str definition_name) =>
          .ok { node_queue_dict := s.node_queue_dict ++ [(node_id, ⟨node_id, definition_name, 1⟩)],
                queued_nodes := s.queued_nodes ++ [node_id],
                added_log := s.added_log ++ [⟨node_id, definition_name, 1⟩] }
        | _ => .error "KeyError: metadata type"
      | false => .ok s
    match seeded with
    | .error msg => .error msg
    | .ok s1 =>
      match lookupList s1.node_queue_dict node_id with
      | none => .ok s1
      | some t =>
        let s2 := { s1 with
          node_queue_dict := s1.node_queue_dict.filter (fun p => p.1 ≠ node_id) }
        if discovery_allowed levels t.level then
          match find_connected_nodes defs dfuel t.definition_name g false with
          | none => .error "uncaught exception in find_connected_nodes"
          | some conns => .ok (conns.foldl (resume_enqueue_connected exclude t.level) s2)
        else .ok s2

/-- Replay of the remaining checkpoint lines. -/
def resume_replay_go (defs : Defs) (dfuel : Nat) (exclude : List String) (levels : Nat) :
    Bool → ResumeState → List GValue → Except String ResumeState
  | _, s, [] => .ok s
  | isFirst, s, g :: rest =>
    match resume_line defs dfuel exclude levels isFirst s g with
    | .error msg => .error msg
    | .ok s2 => resume_replay_go defs dfuel exclude levels false s2 rest

/-- The replay phase of Fbarc.resume over the parsed checkpoint lines (the
JSON-lines file abstracted as the list of its parsed records; an empty
file is the empty list). Note that the source has no dedicated error type
for resume: an empty file simply yields an empty pending map. -/
def resume_replay (defs : Defs) (dfuel : Nat) (exclude : List String) (levels : Nat)
    (lines : List GValue) : Except String ResumeState :=
  resume_replay_go defs dfuel exclude levels true ⟨[], [], []⟩ lines

/-- The crawl state Fbarc.resume hands to _get_nodes after replay: the
pending tasks in their map order become the live queue, under the replayed
queued_nodes set. -/
def resume_init (rst : ResumeState) : CrawlState :=
  { node_queue := rst.node_queue_dict.map (fun p => p.2),
    queued_nodes := rst.queued_nodes,
    trace := [],
    failed := false }

/-- Demonstration definition table: one edge (friends), every type mapped
to t, node_batch_size 2 as in the batching example of the specification. -/
def batchDemoDefs : Defs := fun _ =>
  { default_edges := ["friends"], edges := [], edge_type := fun _ => "t",
    follow_edge := fun _ => true, node_batch_size := 2 }

/-- Five pending tasks of the same type and level. -/
def batchDemoQueue : List CrawlTask :=
  [⟨"1", "t", 1⟩, ⟨"2", "t", 1⟩, ⟨"3", "t", 1⟩, ⟨"4", "t", 1⟩, ⟨"5", "t", 1⟩]

theorem nextBatchGo_join (defs : Defs) :
    ∀ (q : List CrawlTask) (acc : List String) (t : CrawlTask),
    (nextBatchGo defs acc t q).1.1 ++ ((nextBatchGo defs acc t q).2.map CrawlTask.node_id)
      = acc ++ t.node_id :: q.map CrawlTask.node_id
  | [], acc, t => by simp [nextBatchGo]
  | t2 :: rest, acc, t => by
    by_cases h : t2.definition_name ≠ t.definition_name ∨ t2.level ≠ t.level ∨
        (acc ++ [t.node_id]).length = (defs t.definition_name).node_batch_size
    · simp only [nextBatchGo, if_pos h]
      simp
    · simp only [nextBatchGo, if_neg h]
      rw [nextBatchGo_join defs rest (acc ++ [t.node_id]) t2]
      simp

theorem nextBatchGo_rest_length (defs : Defs) :
    ∀ (q : List CrawlTask) (acc : List String) (t : CrawlTask),
    (nextBatchGo defs acc t q).2.length ≤ q.length
  | [], acc, t => by simp [nextBatchGo]
  | t2 :: rest, acc, t => by
    by_cases h : t2.definition_name ≠ t.definition_name ∨ t2.level ≠ t.level ∨
        (acc ++ [t.node_id]).length = (defs t.definition_name).node_batch_size
    · simp only [nextBatchGo, if_pos h]
      simp
    · simp only [nextBatchGo, if_neg h]
      exact le_trans (nextBatchGo_rest_length defs rest (acc ++ [t.node_id]) t2)
        (Nat.le_succ rest.length)

theorem nextBatchGo_rest_subset (defs : Defs) :
    ∀ (q : List CrawlTask) (acc : List String) (t : CrawlTask),
    ∀ x ∈ (nextBatchGo defs acc t q).2, x ∈ q
  | [], acc, t => by simp [nextBatchGo]
  | t2 :: rest, acc, t => by
    by_cases h : t2.definition_name ≠ t.definition_name ∨ t2.level ≠ t.level ∨
        (acc ++ [t.node_id]).length = (defs t.definition_name).node_batch_size
    · simp only [nextBatchGo, if_pos h]
      exact fun x hx => hx
    · simp only [nextBatchGo, if_neg h]
      exact fun x hx => List.mem_cons_of_mem t2 (nextBatchGo_rest_subset defs rest _ t2 x hx)

theorem nextBatchGo_name_level (defs : Defs) :
    ∀ (q : List CrawlTask) (acc : List String) (t : CrawlTask),
    (nextBatchGo defs acc t q).1.2.1 = t.definition_name ∧
      (nextBatchGo defs acc t q).1.2.2 = t.level
  | [], acc, t => by simp [nextBatchGo]
  | t2 :: rest, acc, t => by
    by_cases h : t2.definition_name ≠ t.definition_name ∨ t2.level ≠ t.level ∨
        (acc ++ [t.node_id]).length = (defs t.definition_name).node_batch_size
    · have heq : nextBatchGo defs acc t (t2 :: rest) =
          ((acc ++ [t.node_id], t.definition_name, t.level), t2 :: rest) := by
        simp only [nextBatchGo, if_pos h]
      rw [heq]
      exact ⟨rfl, rfl⟩
    · simp only [nextBatchGo, if_neg h]
      rw [not_or, not_or] at h
      have ih := nextBatchGo_name_level defs rest (acc ++ [t.node_id]) t2
      exact ⟨ih.1.trans (not_not.mp h.1), ih.2.trans (not_not.mp h.2.1)⟩

theorem nextBatchGo_batch_length (defs : Defs) :
    ∀ (q : List CrawlTask) (acc : List String) (t : CrawlTask),
    acc.length < (defs t.definition_name).node_batch_size →
    (nextBatchGo defs acc t q).1.1.length ≤ (defs t.definition_name).node_batch_size
  | [], acc, t => by
    intro hlt
    simp only [nextBatchGo]
    simpa using hlt
  | t2 :: rest, acc, t => by
    intro hlt
    by_cases h : t2.definition_name ≠ t.definition_name ∨ t2.level ≠ t.level ∨
        (acc ++ [t.node_id]).length = (defs t.definition_name).node_batch_size
    · simp only [nextBatchGo, if_pos h]
      simpa using hlt
    · simp only [nextBatchGo, if_neg h]
      rw [not_or, not_or] at h
      have h1 : t2.definition_name = t.definition_name := not_not.mp h.1
      have h3 := h.2.2
      have hlt2 : (acc ++ [t.node_id]).length < (defs t2.definition_name).node_batch_size := by
        rw [h1]
        simp only [List.length_append, List.length_cons, List.length_nil] at h3 ⊢
        omega
      have := nextBatchGo_batch_length defs rest (acc ++ [t.node_id]) t2 hlt2
      rw [h1] at this
      exact this

theorem node_queue_iter_aux_join (defs : Defs) :
    ∀ (f : Nat) (q : List CrawlTask), q.length ≤ f →
    ((node_queue_iter_aux defs f q).map (fun b => b.1)).flatten = q.map CrawlTask.node_id
  | 0, q, h => by
    have hq : q = [] := List.eq_nil_of_length_eq_zero (Nat.le_zero.mp h)
    subst hq
    simp [node_queue_iter_aux]
  | f + 1, [], _ => by simp [node_queue_iter_aux]
  | f + 1, t :: rest, h => by
    simp only [node_queue_iter_aux, List.map_cons, List.flatten_cons]
    have hlen : (nextBatchGo defs [] t rest).2.length ≤ f := by
      have h2 := nextBatchGo_rest_length defs rest [] t
      simp only [List.length_cons] at h
      omega
    rw [node_queue_iter_aux_join defs f _ hlen]
    have h3 := nextBatchGo_join defs rest [] t
    simpa using h3

theorem node_queue_iter_aux_batch_le (defs : Defs)
    (hbs : ∀ n, 0 < (defs n).node_batch_size) :
    ∀ (f : Nat) (q : List CrawlTask),
    (node_queue_iter_aux defs f q).all
      (fun b => decide (b.1.length ≤ (defs b.2.1).node_batch_size)) = true
  | 0, _ => by simp [node_queue_iter_aux]
  | f + 1, [] => by simp [node_queue_iter_aux]
  | f + 1, t :: rest => by
    simp only [node_queue_iter_aux, List.all_cons, Bool.and_eq_true, decide_eq_true_eq]
    refine ⟨?_, node_queue_iter_aux_batch_le defs hbs f _⟩
    have hname := (nextBatchGo_name_level defs rest [] t).1
    rw [hname]
    exact nextBatchGo_batch_length defs rest [] t
      (by simpa using hbs t.definition_name)

/-- C4. Batching arithmetic: node_queue_iter pops maximal contiguous
same-(type, level) runs from the queue front, capped at the popped type's
node_batch_size; for five same-type same-level tasks with node_batch_size 2
it yields batches of sizes 2, 2, 1 in queue order, and for every queue the
concatenation of the yielded batches is the original queue order. -/
theorem c4_batching (defs : Defs) (q : List CrawlTask)
    (hbs : ∀ n, 0 < (defs n).node_batch_size) :
    node_queue_iter batchDemoDefs batchDemoQueue =
        [(["1", "2"], "t", 1), (["3", "4"], "t", 1), (["5"], "t", 1)] ∧
    ((node_queue_iter defs q).map (fun b => b.1)).flatten = q.map CrawlTask.node_id ∧
    (node_queue_iter defs q).all
        (fun b => decide (b.1.length ≤ (defs b.2.1).node_batch_size)) = true := by
  refine ⟨by decide, ?_, ?_⟩
  · exact node_queue_iter_aux_join defs q.length q le_rfl
  · exact node_queue_iter_aux_batch_le defs hbs q.length q

/-- Witness for C4 at the specification's own example. -/
theorem c4_batching_witness :
    node_queue_iter batchDemoDefs batchDemoQueue =
        [(["1", "2"], "t", 1), (["3", "4"], "t", 1), (["5"], "t", 1)] ∧
    ((node_queue_iter batchDemoDefs batchDemoQueue).map (fun b => b.1)).flatten
        = batchDemoQueue.map CrawlTask.node_id ∧
    (node_queue_iter batchDemoDefs batchDemoQueue).all
        (fun b => decide (b.1.length ≤ (batchDemoDefs b.2.1).node_batch_size)) = true :=
  c4_batching batchDemoDefs batchDemoQueue (fun _ => Nat.zero_lt_succ 1)

theorem enqueuedIds_append (tr tr2 : List Event) :
    enqueuedIds (tr ++ tr2) = enqueuedIds tr ++ enqueuedIds tr2 :=
  List.filterMap_append tr tr2 _

theorem enqueuedTasks_append (tr tr2 : List Event) :
    enqueuedTasks (tr ++ tr2) = enqueuedTasks tr ++ enqueuedTasks tr2 :=
  List.filterMap_append tr tr2 _

theorem enqueuedIds_emit (tr : List Event) (i : String) :
    enqueuedIds (tr ++ [.emit i]) = enqueuedIds tr := by
  rw [enqueuedIds_append]
  simp [enqueuedIds]

/-- The dedup invariant, with a ghost prefix P of ids enqueued before this
crawl state was entered (the replayed additions of a resumed run): the ids
of all tasks ever appended, P first, are pairwise distinct, and every one
of them is in the queued_nodes set. -/
def DedupInv (P : List String) (s : CrawlState) : Prop :=
  (P ++ enqueuedIds s.trace).Nodup ∧
    ∀ i ∈ P ++ enqueuedIds s.trace, i ∈ s.queued_nodes

theorem dedupInv_enqueue_connected (P : List String) (exclude : List String) (level : Nat)
    (s : CrawlState) (c : String × String) (h : DedupInv P s) :
    DedupInv P (enqueue_connected exclude level s c) := by
  unfold enqueue_connected
  by_cases hc : c.1 ∉ s.queued_nodes ∧ c.2 ∉ exclude
  · rw [if_pos hc]
    obtain ⟨hnd, hmem⟩ := h
    have hids : enqueuedIds (s.trace ++ [.enq ⟨c.1, c.2, level + 1⟩])
        = enqueuedIds s.trace ++ [c.1] := by
      rw [enqueuedIds_append]; rfl
    constructor
    · simp only [hids, ← List.append_assoc]
      refine List.Nodup.append hnd (List.nodup_singleton c.1) ?_
      intro x hx hx2
      rcases List.mem_singleton.mp hx2 with rfl
      exact hc.1 (hmem _ hx)
    · intro i hi
      simp only [hids, ← List.append_assoc, List.mem_append, List.mem_singleton] at hi
      rcases hi with hi | rfl
      · exact List.mem_append_left _ (hmem i (List.mem_append.mpr hi))
      · exact List.mem_append_right _ (List.mem_singleton_self c.1)
  · rw [if_neg hc]
    exact h

theorem dedupInv_foldl_enqueue (P : List String) (exclude : List String) (level : Nat) :
    ∀ (conns : List (String × String)) (s : CrawlState), DedupInv P s →
    DedupInv P (conns.foldl (enqueue_connected exclude level) s)
  | [], s, h => h
  | c :: rest, s, h => by
    rw [List.foldl_cons]
    exact dedupInv_foldl_enqueue P exclude level rest _
      (dedupInv_enqueue_connected P exclude level s c h)

theorem dedupInv_discover_node (P : List String) (defs : Defs) (dfuel : Nat)
    (exclude : List String) (levels : Nat) (dn : String) (level : Nat)
    (s : CrawlState) (g : GValue) (h : DedupInv P s) :
    DedupInv P (discover_node defs dfuel exclude levels dn level s g) := by
  unfold discover_node
  by_cases hd : discovery_allowed levels level = true
  · rw [if_pos hd]
    cases hfc : find_connected_nodes defs dfuel dn g false with
    | none => exact h
    | some conns => exact dedupInv_foldl_enqueue P exclude level conns s h
  · rw [if_neg hd]; exact h

theorem dedupInv_process_node (P : List String) (defs : Defs) (dfuel : Nat)
    (exclude : List String) (levels : Nat) (dn : String) (level : Nat)
    (s : CrawlState) (item : String × GValue) (h : DedupInv P s) :
    DedupInv P (process_node defs dfuel exclude levels dn level s item) := by
  unfold process_node
  by_cases hf : s.failed
  · rw [if_pos hf]; exact h
  · rw [if_neg hf]
    have hstep := dedupInv_discover_node P defs dfuel exclude levels dn level s item.2 h
    by_cases hf2 : (discover_node defs dfuel exclude levels dn level s item.2).failed
    · rw [if_pos hf2]; exact hstep
    · rw [if_neg hf2]
      obtain ⟨hnd, hmem⟩ := hstep
      exact ⟨by rwa [enqueuedIds_emit], by rwa [enqueuedIds_emit]⟩

theorem dedupInv_process_batch (P : List String) (defs : Defs) (dfuel : Nat)
    (exclude : List String) (levels : Nat) (dn : String) (level : Nat) :
    ∀ (items : List (String × GValue)) (s : CrawlState), DedupInv P s →
    DedupInv P (process_batch defs dfuel exclude levels dn level s items)
  | [], _, h => h
  | it :: rest, s, h => by
    unfold process_batch
    rw [List.foldl_cons]
    exact dedupInv_process_batch P defs dfuel exclude levels dn level rest _
      (dedupInv_process_node P defs dfuel exclude levels dn level s it h)

theorem dedupInv_crawl_step (P : List String) (defs : Defs) (dfuel : Nat)
    (fetch : List String → String → List (String × GValue))
    (exclude : List String) (levels : Nat) (s s2 : CrawlState)
    (hstep : crawl_step defs dfuel fetch exclude levels s = some s2)
    (h : DedupInv P s) : DedupInv P s2 := by
  unfold crawl_step at hstep
  by_cases hf : s.failed
  · rw [if_pos hf] at hstep; exact absurd hstep (by simp)
  · rw [if_neg hf] at hstep
    cases hq : s.node_queue with
    | nil => rw [hq] at hstep; exact absurd hstep (by simp)
    | cons t rest =>
      rw [hq] at hstep
      have h2 : DedupInv P { s with node_queue := (nextBatchGo defs [] t rest).2 } := h
      rw [← Option.some_inj.mp hstep]
      exact dedupInv_process_batch P defs dfuel exclude levels _ _ _
        { s with node_queue := (nextBatchGo defs [] t rest).2 } h2

theorem dedupInv_crawl_steps (P : List String) (defs : Defs) (dfuel : Nat)
    (fetch : List String → String → List (String × GValue))
    (exclude : List String) (levels : Nat) :
    ∀ (fuel : Nat) (s : CrawlState), DedupInv P s →
    DedupInv P (crawl_steps defs dfuel fetch exclude levels fuel s)
  | 0, _, h => h
  | f + 1, s, h => by
    unfold crawl_steps
    cases hstep : crawl_step defs dfuel fetch exclude levels s with
    | none => exact h
    | some s2 =>
      exact dedupInv_crawl_steps P defs dfuel fetch exclude levels f s2
        (dedupInv_crawl_step P defs dfuel fetch exclude levels s s2 hstep h)

/-- The dedup invariant of the replay phase: the ids of all tasks ever
added to the pending map are pairwise distinct and all in queued_nodes. -/
def ResumeInv (s : ResumeState) : Prop :=
  (s.added_log.map CrawlTask.node_id).Nodup ∧
    ∀ i ∈ s.added_log.map CrawlTask.node_id, i ∈ s.queued_nodes

theorem resumeInv_enqueue_connected (exclude : List String) (level : Nat)
    (s : ResumeState) (c : String × String) (h : ResumeInv s) :
    ResumeInv (resume_enqueue_connected exclude level s c) := by
  unfold resume_enqueue_connected
  by_cases hc : c.1 ∉ s.queued_nodes ∧ c.2 ∉ exclude ∧
      (lookupList s.node_queue_dict c.1).isNone
  · rw [if_pos hc]
    obtain ⟨hnd, hmem⟩ := h
    constructor
    · simp only [List.map_append]
      refine List.Nodup.append hnd (by simp) ?_
      intro x hx hx2
      simp only [List.map_cons, List.map_nil, List.mem_singleton] at hx2
      subst hx2
      exact hc.1 (hmem _ hx)
    · intro i hi
      simp only [List.map_append, List.map_cons, List.map_nil, List.mem_append,
        List.mem_singleton] at hi
      rcases hi with hi | rfl
      · exact List.mem_append_left _ (hmem i hi)
      · exact List.mem_append_right _ (List.mem_singleton_self c.1)
  · rw [if_neg hc]
    exact h

theorem resumeInv_foldl_enqueue (exclude : List String) (level : Nat) :
    ∀ (conns : List (String × String)) (s : ResumeState), ResumeInv s →
    ResumeInv (conns.foldl (resume_enqueue_connected exclude level) s)
  | [], _, h => h
  | c :: rest, s, h => by
    rw [List.foldl_cons]
    exact resumeInv_foldl_enqueue exclude level rest _
      (resumeInv_enqueue_connected exclude level s c h)

theorem resumeInv_pop (s : ResumeState) (node_id : String) (h : ResumeInv s) :
    ResumeInv { s with
      node_queue_dict := s.node_queue_dict.filter (fun p => p.1 ≠ node_id) } := h

theorem resumeInv_resume_line_false (defs : Defs) (dfuel : Nat) (exclude : List String)
    (levels : Nat) (s s2 : ResumeState) (g : GValue)
    (hline : resume_line defs dfuel exclude levels false s g = .ok s2)
    (h : ResumeInv s) : ResumeInv s2 := by
  unfold resume_line at hline
  cases hid : getIdStr g with
  | none => rw [hid] at hline; exact absurd hline (by simp)
  | some node_id =>
    rw [hid] at hline
    dsimp only at hline
    cases hlk : lookupList s.node_queue_dict node_id with
    | none =>
      rw [hlk] at hline
      exact (Except.ok.inj hline) ▸ h
    | some t =>
      rw [hlk] at hline
      dsimp only at hline
      have hpop := resumeInv_pop s node_id h
      by_cases hd : discovery_allowed levels t.level = true
      · rw [if_pos hd] at hline
        cases hfc : find_connected_nodes defs dfuel t.definition_name g false with
        | none => rw [hfc] at hline; exact absurd hline (by simp)
        | some conns =>
          rw [hfc] at hline
          exact (Except.ok.inj hline) ▸
            resumeInv_foldl_enqueue exclude t.level conns _ hpop
      · rw [if_neg hd] at hline
        exact (Except.ok.inj hline) ▸ hpop

theorem resumeInv_first_line (defs : Defs) (dfuel : Nat) (exclude : List String)
    (levels : Nat) (s2 : ResumeState) (g : GValue)
    (hline : resume_line defs dfuel exclude levels true ⟨[], [], []⟩ g = .ok s2) :
    ResumeInv s2 := by
  unfold resume_line at hline
  cases hid : getIdStr g with
  | none => rw [hid] at hline; exact absurd hline (by simp)
  | some node_id =>
    rw [hid] at hline
    dsimp only at hline
    cases hmt : (g.get? "metadata").bind (fun m => m.get? "type") with
    | none => rw [hmt] at hline; exact absurd hline (by simp)
    | some mv =>
      rw [hmt] at hline
      cases mv with
      | str definition_name =>
        have hseed : ResumeInv
            ⟨[(node_id, ⟨node_id, definition_name, 1⟩)], [node_id],
              [⟨node_id, definition_name, 1⟩]⟩ := by
          constructor
          · simp
          · intro i hi
            simpa using hi
        simp only [List.nil_append] at hline
        cases hlk : lookupList [(node_id, (⟨node_id, definition_name, 1⟩ : CrawlTask))] node_id with
        | none => simp [lookupList] at hlk
        | some t =>
          rw [hlk] at hline
          dsimp only at hline
          have hpop := resumeInv_pop _ node_id hseed
          by_cases hd : discovery_allowed levels t.level = true
          · rw [if_pos hd] at hline
            cases hfc : find_connected_nodes defs dfuel t.definition_name g false with
            | none => rw [hfc] at hline; exact absurd hline (by simp)
            | some conns =>
              rw [hfc] at hline
              exact (Except.ok.inj hline) ▸
                resumeInv_foldl_enqueue exclude t.level conns _ hpop
          · rw [if_neg hd] at hline
            exact (Except.ok.inj hline) ▸ hpop
      | null => exact absurd hline (by simp)
      | bool b => exact absurd hline (by simp)
      | num n => exact absurd hline (by simp)
      | arr xs => exact absurd hline (by simp)
      | obj fs => exact absurd hline (by simp)

theorem resumeInv_replay_go (defs : Defs) (dfuel : Nat) (exclude : List String)
    (levels : Nat) :
    ∀ (lines : List GValue) (s s2 : ResumeState),
    resume_replay_go defs dfuel exclude levels false s lines = .ok s2 →
    ResumeInv s → ResumeInv s2
  | [], s, s2, hgo, h => by
    unfold resume_replay_go at hgo
    exact (Except.ok.inj hgo) ▸ h
  | g :: rest, s, s2, hgo, h => by
    unfold resume_replay_go at hgo
    cases hline : resume_line defs dfuel exclude levels false s g with
    | error msg => rw [hline] at hgo; exact absurd hgo (by simp)
    | ok s1 =>
      rw [hline] at hgo
      exact resumeInv_replay_go defs dfuel exclude levels rest s1 s2 hgo
        (resumeInv_resume_line_false defs dfuel exclude levels s s1 g hline h)

theorem resumeInv_replay (defs : Defs) (dfuel : Nat) (exclude : List String)
    (levels : Nat) (lines : List GValue) (rst : ResumeState)
    (hres : resume_replay defs dfuel exclude levels lines = .ok rst) :
    ResumeInv rst := by
  unfold resume_replay at hres
  cases lines with
  | nil =>
    unfold resume_replay_go at hres
    rw [← Except.ok.inj hres]
    exact ⟨List.nodup_nil, by intro i hi; simp at hi⟩
  | cons g rest =>
    unfold resume_replay_go at hres
    cases hline : resume_line defs dfuel exclude levels true ⟨[], [], []⟩ g with
    | error msg => rw [hline] at hres; exact absurd hres (by simp)
    | ok s1 =>
      rw [hline] at hres
      exact resumeInv_replay_go defs dfuel exclude levels rest s1 rst hres
        (resumeInv_first_line defs dfuel exclude levels s1 g hline)

/-- C1. Dedup: in a crawl started by get_nodes, the ids of all tasks ever
appended to the node queue (the root included) are pairwise distinct — an
id is enqueued at most once, at first discovery, so the definition name
recorded at that single append is never revised; and in a resumed crawl the
ids added during replay together with the ids appended by the continued
run are pairwise distinct as well. Holds for every definition table, fetch
response, exclusion set, level limit and fuel. -/
theorem c1_dedup (defs : Defs) (dfuel : Nat)
    (fetch : List String → String → List (String × GValue))
    (exclude : List String) (levels fuel : Nat)
    (root_node_id root_definition_name : String)
    (lines : List GValue) (rst : ResumeState)
    (hres : resume_replay defs dfuel exclude levels lines = .ok rst) :
    (enqueuedIds (crawl_steps defs dfuel fetch exclude levels fuel
        (get_nodes_init root_node_id root_definition_name)).trace).Nodup ∧
    (rst.added_log.map CrawlTask.node_id ++
      enqueuedIds (crawl_steps defs dfuel fetch exclude levels fuel
        (resume_init rst)).trace).Nodup := by
  constructor
  · have hinit : DedupInv [] (get_nodes_init root_node_id root_definition_name) := by
      constructor
      · simp [get_nodes_init, enqueuedIds]
      · intro i hi
        simp only [get_nodes_init, enqueuedIds, List.nil_append] at hi ⊢
        simpa using hi
    have := dedupInv_crawl_steps [] defs dfuel fetch exclude levels fuel _ hinit
    simpa using this.1
  · obtain ⟨hnd, hmem⟩ := resumeInv_replay defs dfuel exclude levels lines rst hres
    have hinit : DedupInv (rst.added_log.map CrawlTask.node_id) (resume_init rst) := by
      constructor
      · simpa [resume_init, enqueuedIds] using hnd
      · intro i hi
        simp only [resume_init, enqueuedIds, List.filterMap_nil, List.append_nil] at hi
        exact hmem i hi
    exact (dedupInv_crawl_steps (rst.added_log.map CrawlTask.node_id)
      defs dfuel fetch exclude levels fuel _ hinit).1

/-- Witness for C1: the two-node demonstration crawl and a resume from an
empty checkpoint. -/
theorem c1_dedup_witness :
    (enqueuedIds (crawl_steps batchDemoDefs 6
        (fun ids _ => ids.map (fun i =>
          (i, if i = "r" then
                GValue.obj [("id", .str "r"),
                  ("friends", .obj [("data", .arr [.obj [("id", .str "c")]])])]
              else GValue.obj [("id", .str i)])))
        [] 2 3 (get_nodes_init "r" "t")).trace).Nodup ∧
    ((⟨[], [], []⟩ : ResumeState).added_log.map CrawlTask.node_id ++
      enqueuedIds (crawl_steps batchDemoDefs 6
        (fun ids _ => ids.map (fun i =>
          (i, if i = "r" then
                GValue.obj [("id", .str "r"),
                  ("friends", .obj [("data", .arr [.obj [("id", .str "c")]])])]
              else GValue.obj [("id", .str i)])))
        [] 2 3 (resume_init ⟨[], [], []⟩)).trace).Nodup :=
  c1_dedup batchDemoDefs 6 _ [] 2 3 "r" "t" [] ⟨[], [], []⟩ rfl

theorem enqueuedTasks_emit (tr : List Event) (i : String) :
    enqueuedTasks (tr ++ [.emit i]) = enqueuedTasks tr := by
  rw [enqueuedTasks_append]
  simp [enqueuedTasks]

/-- The level-bound invariant: every task ever appended and every task
still queued has level at most L. -/
def LevelInv (L : Nat) (s : CrawlState) : Prop :=
  (∀ t ∈ enqueuedTasks s.trace, t.level ≤ L) ∧ ∀ t ∈ s.node_queue, t.level ≤ L

theorem levelInv_enqueue_connected (L : Nat) (exclude : List String) (level : Nat)
    (hlvl : level < L) (s : CrawlState) (c : String × String) (h : LevelInv L s) :
    LevelInv L (enqueue_connected exclude level s c) := by
  unfold enqueue_connected
  by_cases hc : c.1 ∉ s.queued_nodes ∧ c.2 ∉ exclude
  · rw [if_pos hc]
    obtain ⟨htr, hq⟩ := h
    constructor
    · intro t ht
      rw [enqueuedTasks_append] at ht
      rcases List.mem_append.mp ht with ht | ht
      · exact htr t ht
      · simp only [enqueuedTasks, List.filterMap_cons, List.filterMap_nil] at ht
        rcases List.mem_singleton.mp ht with rfl
        exact hlvl
    · intro t ht
      rcases List.mem_append.mp ht with ht | ht
      · exact hq t ht
      · rcases List.mem_singleton.mp ht with rfl
        exact hlvl
  · rw [if_neg hc]
    exact h

theorem levelInv_foldl_enqueue (L : Nat) (exclude : List String) (level : Nat)
    (hlvl : level < L) :
    ∀ (conns : List (String × String)) (s : CrawlState), LevelInv L s →
    LevelInv L (conns.foldl (enqueue_connected exclude level) s)
  | [], _, h => h
  | c :: rest, s, h => by
    rw [List.foldl_cons]
    exact levelInv_foldl_enqueue L exclude level hlvl rest _
      (levelInv_enqueue_connected L exclude level hlvl s c h)

theorem levelInv_discover_node (L : Nat) (defs : Defs) (dfuel : Nat)
    (exclude : List String) (dn : String) (level : Nat) (hL : 0 < L)
    (s : CrawlState) (g : GValue) (h : LevelInv L s) :
    LevelInv L (discover_node defs dfuel exclude L dn level s g) := by
  unfold discover_node
  by_cases hd : discovery_allowed L level = true
  · rw [if_pos hd]
    have hlt : level < L := by
      unfold discovery_allowed at hd
      rcases Bool.or_eq_true_iff.mp hd with h0 | hlt
      · exact absurd (Nat.beq_eq_true_eq L 0 ▸ h0) (Nat.pos_iff_ne_zero.mp hL)
      · exact of_decide_eq_true hlt
    cases hfc : find_connected_nodes defs dfuel dn g false with
    | none => exact h
    | some conns => exact levelInv_foldl_enqueue L exclude level hlt conns s h
  · rw [if_neg hd]; exact h

theorem levelInv_process_node (L : Nat) (defs : Defs) (dfuel : Nat)
    (exclude : List String) (dn : String) (level : Nat) (hL : 0 < L)
    (s : CrawlState) (item : String × GValue) (h : LevelInv L s) :
    LevelInv L (process_node defs dfuel exclude L dn level s item) := by
  unfold process_node
  by_cases hf : s.failed
  · rw [if_pos hf]; exact h
  · rw [if_neg hf]
    have hstep := levelInv_discover_node L defs dfuel exclude dn level hL s item.2 h
    by_cases hf2 : (discover_node defs dfuel exclude L dn level s item.2).failed
    · rw [if_pos hf2]; exact hstep
    · rw [if_neg hf2]
      obtain ⟨htr, hq⟩ := hstep
      exact ⟨by rwa [enqueuedTasks_emit], hq⟩

theorem levelInv_process_batch (L : Nat) (defs : Defs) (dfuel : Nat)
    (exclude : List String) (dn : String) (level : Nat) (hL : 0 < L) :
    ∀ (items : List (String × GValue)) (s : CrawlState), LevelInv L s →
    LevelInv L (process_batch defs dfuel exclude L dn level s items)
  | [], _, h => h
  | it :: rest, s, h => by
    unfold process_batch
    rw [List.foldl_cons]
    exact levelInv_process_batch L defs dfuel exclude dn level hL rest _
      (levelInv_process_node L defs dfuel exclude dn level hL s it h)

theorem levelInv_crawl_step (L : Nat) (defs : Defs) (dfuel : Nat)
    (fetch : List String → String → List (String × GValue))
    (exclude : List String) (hL : 0 < L) (s s2 : CrawlState)
    (hstep : crawl_step defs dfuel fetch exclude L s = some s2)
    (h : LevelInv L s) : LevelInv L s2 := by
  unfold crawl_step at hstep
  by_cases hf : s.failed
  · rw [if_pos hf] at hstep; exact absurd hstep (by simp)
  · rw [if_neg hf] at hstep
    cases hq : s.node_queue with
    | nil => rw [hq] at hstep; exact absurd hstep (by simp)
    | cons t rest =>
      rw [hq] at hstep
      have hmid : LevelInv L { s with node_queue := (nextBatchGo defs [] t rest).2 } := by
        refine ⟨h.1, ?_⟩
        intro x hx
        exact h.2 x (hq ▸ List.mem_cons_of_mem t (nextBatchGo_rest_subset defs rest [] t x hx))
      rw [← Option.some_inj.mp hstep]
      exact levelInv_process_batch L defs dfuel exclude _ _ hL _ _ hmid

theorem levelInv_crawl_steps (L : Nat) (defs : Defs) (dfuel : Nat)
    (fetch : List String → String → List (String × GValue))
    (exclude : List String) (hL : 0 < L) :
    ∀ (fuel : Nat) (s : CrawlState), LevelInv L s →
    LevelInv L (crawl_steps defs dfuel fetch exclude L fuel s)
  | 0, _, h => h
  | f + 1, s, h => by
    unfold crawl_steps
    cases hstep : crawl_step defs dfuel fetch exclude L s with
    | none => exact h
    | some s2 =>
      exact levelInv_crawl_steps L defs dfuel fetch exclude hL f s2
        (levelInv_crawl_step L defs dfuel fetch exclude hL s s2 hstep h)

/-- C2. Level bound: in a crawl started by get_nodes with levels = L > 0,
every task ever appended to the node queue and every task still queued has
level at most L (discovery is skipped at level L, so level L + 1 tasks are
never created); with levels = 0 the discovery guard always holds, and a
crawl iteration (on a non-failed state) is exhausted exactly when the node
queue is empty. -/
theorem c2_level_bound (defs : Defs) (dfuel : Nat)
    (fetch : List String → String → List (String × GValue))
    (exclude : List String) (L fuel : Nat)
    (root_node_id root_definition_name : String) (lvl : Nat) (s : CrawlState)
    (hL : 0 < L) (hs : s.failed = false) :
    ((enqueuedTasks (crawl_steps defs dfuel fetch exclude L fuel
        (get_nodes_init root_node_id root_definition_name)).trace).all
      (fun t => decide (t.level ≤ L)) = true) ∧
    ((crawl_steps defs dfuel fetch exclude L fuel
        (get_nodes_init root_node_id root_definition_name)).node_queue.all
      (fun t => decide (t.level ≤ L)) = true) ∧
    discovery_allowed 0 lvl = true ∧
    (crawl_step defs dfuel fetch exclude 0 s = none ↔ s.node_queue = []) := by
  have hinit : LevelInv L (get_nodes_init root_node_id root_definition_name) := by
    constructor
    · intro t ht
      simp only [get_nodes_init, enqueuedTasks, List.filterMap_cons, List.filterMap_nil] at ht
      rcases List.mem_singleton.mp ht with rfl
      exact hL
    · intro t ht
      rcases List.mem_singleton.mp ht with rfl
      exact hL
  have hfin := levelInv_crawl_steps L defs dfuel fetch exclude hL fuel _ hinit
  refine ⟨?_, ?_, ?_, ?_⟩
  · rw [List.all_eq_true]
    intro t ht
    exact decide_eq_true (hfin.1 t ht)
  · rw [List.all_eq_true]
    intro t ht
    exact decide_eq_true (hfin.2 t ht)
  · rfl
  · unfold crawl_step
    rw [if_neg (by rw [hs]; exact Bool.false_ne_true)]
    cases hq : s.node_queue with
    | nil => simp
    | cons t rest => simp

/-- Witness for C2 at the demonstration crawl with L = 2. -/
theorem c2_level_bound_witness :
    ((enqueuedTasks (crawl_steps batchDemoDefs 6
        (fun ids _ => ids.map (fun i => (i, GValue.obj [("id", .str i)])))
        [] 2 3 (get_nodes_init "r" "t")).trace).all
      (fun t => decide (t.level ≤ 2)) = true) ∧
    ((crawl_steps batchDemoDefs 6
        (fun ids _ => ids.map (fun i => (i, GValue.obj [("id", .str i)])))
        [] 2 3 (get_nodes_init "r" "t")).node_queue.all
      (fun t => decide (t.level ≤ 2)) = true) ∧
    discovery_allowed 0 7 = true ∧
    (crawl_step batchDemoDefs 6
        (fun ids _ => ids.map (fun i => (i, GValue.obj [("id", .str i)])))
        [] 0 (get_nodes_init "r" "t") = none ↔
      (get_nodes_init "r" "t").node_queue = []) :=
  c2_level_bound batchDemoDefs 6 _ [] 2 3 "r" "t" 7 (get_nodes_init "r" "t")
    (Nat.zero_lt_succ 1) rfl

/-- Fetch oracle of the two-node demonstration crawl: the root node r
carries one friends connection to node c; every other node is bare. -/
def c8fetch : List String → String → List (String × GValue) :=
  fun ids _ => ids.map (fun i =>
    (i, if i = "r" then
          GValue.obj [("id", .str "r"),
            ("friends", .obj [("data", .arr [.obj [("id", .str "c")]])])]
        else GValue.obj [("id", .str i)]))

theorem enqueue_connected_trace (exclude : List String) (level : Nat)
    (s : CrawlState) (c : String × String) :
    ∃ ts : List CrawlTask,
      (enqueue_connected exclude level s c).trace = s.trace ++ ts.map Event.enq ∧
      (enqueue_connected exclude level s c).failed = s.failed := by
  unfold enqueue_connected
  by_cases hc : c.1 ∉ s.queued_nodes ∧ c.2 ∉ exclude
  · rw [if_pos hc]
    exact ⟨[⟨c.1, c.2, level + 1⟩], rfl, rfl⟩
  · rw [if_neg hc]
    exact ⟨[], by simp, rfl⟩

theorem foldl_enqueue_trace (exclude : List String) (level : Nat) :
    ∀ (conns : List (String × String)) (s : CrawlState),
    ∃ ts : List CrawlTask,
      (conns.foldl (enqueue_connected exclude level) s).trace = s.trace ++ ts.map Event.enq ∧
      (conns.foldl (enqueue_connected exclude level) s).failed = s.failed
  | [], s => ⟨[], by simp, rfl⟩
  | c :: rest, s => by
    rw [List.foldl_cons]
    obtain ⟨ts0, h0, hf0⟩ := enqueue_connected_trace exclude level s c
    obtain ⟨ts1, h1, hf1⟩ := foldl_enqueue_trace exclude level rest (enqueue_connected exclude level s c)
    exact ⟨ts0 ++ ts1, by rw [h1, h0, List.map_append, List.append_assoc], by rw [hf1, hf0]⟩

theorem discover_node_trace (defs : Defs) (dfuel : Nat) (exclude : List String)
    (levels : Nat) (dn : String) (level : Nat) (s : CrawlState) (g : GValue) :
    ∃ ts : List CrawlTask,
      (discover_node defs dfuel exclude levels dn level s g).trace =
        s.trace ++ ts.map Event.enq := by
  unfold discover_node
  by_cases hd : discovery_allowed levels level = true
  · rw [if_pos hd]
    cases hfc : find_connected_nodes defs dfuel dn g false with
    | none => exact ⟨[], by simp⟩
    | some conns =>
      obtain ⟨ts, htr, _⟩ := foldl_enqueue_trace exclude level conns s
      exact ⟨ts, htr⟩
  · rw [if_neg hd]
    exact ⟨[], by simp⟩

theorem process_node_trace_shape (defs : Defs) (dfuel : Nat) (exclude : List String)
    (levels : Nat) (dn : String) (level : Nat) (s : CrawlState) (item : String × GValue)
    (hs : s.failed = false)
    (hok : (process_node defs dfuel exclude levels dn level s item).failed = false) :
    ∃ ts : List CrawlTask,
      (process_node defs dfuel exclude levels dn level s item).trace =
        s.trace ++ ts.map Event.enq ++ [Event.emit item.1] := by
  unfold process_node at hok ⊢
  rw [if_neg (by rw [hs]; exact Bool.false_ne_true)] at hok ⊢
  by_cases hf2 : (discover_node defs dfuel exclude levels dn level s item.2).failed = true
  · rw [if_pos hf2] at hok
    exact absurd (hf2.symm.trans hok) (by simp)
  · rw [if_neg hf2] at hok ⊢
    obtain ⟨ts, htr⟩ := discover_node_trace defs dfuel exclude levels dn level s item.2
    refine ⟨ts, ?_⟩
    show (discover_node defs dfuel exclude levels dn level s item.2).trace ++ [Event.emit item.1]
      = s.trace ++ ts.map Event.enq ++ [Event.emit item.1]
    rw [htr]

theorem enqueuedTasks_of_enqs (ts : List CrawlTask) (i : String) :
    enqueuedTasks (ts.map Event.enq ++ [Event.emit i]) = ts := by
  induction ts with
  | nil => rfl
  | cons t rest ih =>
    simp only [List.map_cons, List.cons_append]
    unfold enqueuedTasks at ih ⊢
    rw [List.filterMap_cons]
    simpa using ih

/-- C8 counterexample. In the two-node demonstration crawl, the connected
node c discovered in the record of r is appended to the node queue before
the record of r is yielded: the trace puts the enq of c strictly before the
emit of r, refuting the claim that the record is handed to the sinks before
its discoveries are enqueued. -/
theorem c8_emission_counterexample :
    (crawl_steps batchDemoDefs 6 c8fetch [] 2 3 (get_nodes_init "r" "t")).trace =
      [.enq ⟨"r", "t", 1⟩, .enq ⟨"c", "t", 2⟩, .emit "r", .emit "c"] ∧
    ¬ ((crawl_steps batchDemoDefs 6 c8fetch [] 2 3 (get_nodes_init "r" "t")).trace.indexOf
          (Event.emit "r") <
        (crawl_steps batchDemoDefs 6 c8fetch [] 2 3 (get_nodes_init "r" "t")).trace.indexOf
          (Event.enq ⟨"c", "t", 2⟩)) := by
  constructor
  · decide
  · decide

/-- C8 amended. For every node processed by the scheduler (on a non-failed
state, and when processing does not abort on a discovery exception), the
events recorded for that node are exactly the enq events of its discovered
connections followed by the emit of its record: the connected nodes are
appended to the node queue first, and the record is yielded to the sinks
after them — the reverse of the claimed order. -/
theorem c8_emission_amended (defs : Defs) (dfuel : Nat) (exclude : List String)
    (levels : Nat) (dn : String) (level : Nat) (s : CrawlState) (item : String × GValue)
    (hs : s.failed = false)
    (hok : (process_node defs dfuel exclude levels dn level s item).failed = false) :
    (process_node defs dfuel exclude levels dn level s item).trace =
      s.trace ++ ((process_node defs dfuel exclude levels dn level s item).trace.drop
        s.trace.length) ∧
    (process_node defs dfuel exclude levels dn level s item).trace.drop s.trace.length =
      (enqueuedTasks ((process_node defs dfuel exclude levels dn level s item).trace.drop
          s.trace.length)).map Event.enq ++ [Event.emit item.1] := by
  obtain ⟨ts, htr⟩ := process_node_trace_shape defs dfuel exclude levels dn level s item hs hok
  have hdrop : (process_node defs dfuel exclude levels dn level s item).trace.drop
      s.trace.length = ts.map Event.enq ++ [Event.emit item.1] := by
    rw [htr, List.append_assoc, List.drop_left]
  constructor
  · rw [hdrop, htr, List.append_assoc]
  · rw [hdrop, enqueuedTasks_of_enqs]

/-- Witness for the amended C8 at the demonstration root node. -/
theorem c8_emission_amended_witness :
    (process_node batchDemoDefs 6 [] 2 "t" 1 (get_nodes_init "r" "t")
        ("r", GValue.obj [("id", .str "r"),
          ("friends", .obj [("data", .arr [.obj [("id", .str "c")]])])])).trace =
      (get_nodes_init "r" "t").trace ++
        ((process_node batchDemoDefs 6 [] 2 "t" 1 (get_nodes_init "r" "t")
          ("r", GValue.obj [("id", .str "r"),
            ("friends", .obj [("data", .arr [.obj [("id", .str "c")]])])])).trace.drop
          (get_nodes_init "r" "t").trace.length) ∧
    (process_node batchDemoDefs 6 [] 2 "t" 1 (get_nodes_init "r" "t")
        ("r", GValue.obj [("id", .str "r"),
          ("friends", .obj [("data", .arr [.obj [("id", .str "c")]])])])).trace.drop
        (get_nodes_init "r" "t").trace.length =
      (enqueuedTasks ((process_node batchDemoDefs 6 [] 2 "t" 1 (get_nodes_init "r" "t")
          ("r", GValue.obj [("id", .str "r"),
            ("friends", .obj [("data", .arr [.obj [("id", .str "c")]])])])).trace.drop
          (get_nodes_init "r" "t").trace.length)).map Event.enq ++
        [Event.emit "r"] :=
  c8_emission_amended batchDemoDefs 6 [] 2 "t" 1 (get_nodes_init "r" "t")
    ("r", GValue.obj [("id", .str "r"),
      ("friends", .obj [("data", .arr [.obj [("id", .str "c")]])])])
    rfl (by decide)

/-- C3 counterexample. Resume on an empty checkpoint file does not fail at
all: the replay loop never runs, resume proceeds with an empty pending
queue (and the continued run then emits nothing because the queue is
exhausted immediately) — there is no ResumeError in the code, refuting the
claim that an empty checkpoint raises one. -/
theorem c3_resume_counterexample :
    resume_replay batchDemoDefs 6 [] 1 [] = .ok ⟨[], [], []⟩ ∧
    (resume_init ⟨[], [], []⟩).node_queue = [] := ⟨rfl, rfl⟩

/-- C3 amended. Resume does not raise a dedicated error on malformed input:
an empty checkpoint file succeeds with an empty pending state, and a first
record that lacks a metadata type makes the replay fail with a plain
key-lookup failure (Python KeyError) — the source defines no ResumeError
class at all. -/
theorem c3_resume_amended (defs : Defs) (dfuel : Nat) (exclude : List String)
    (levels : Nat) (g : GValue) (lines : List GValue) (i : String)
    (hid : getIdStr g = some i)
    (hmt : (g.get? "metadata").bind (fun m => m.get? "type") = none) :
    resume_replay defs dfuel exclude levels [] = .ok ⟨[], [], []⟩ ∧
    resume_replay defs dfuel exclude levels (g :: lines) =
      .error "KeyError: metadata type" := by
  refine ⟨rfl, ?_⟩
  unfold resume_replay resume_replay_go resume_line
  rw [hid]
  dsimp only
  rw [hmt]

/-- Witness for the amended C3: a record with an id but no metadata. -/
theorem c3_resume_amended_witness :
    resume_replay batchDemoDefs 6 [] 1 [] = .ok ⟨[], [], []⟩ ∧
    resume_replay batchDemoDefs 6 [] 1 [GValue.obj [("id", .str "x")]] =
      .error "KeyError: metadata type" :=
  c3_resume_amended batchDemoDefs 6 [] 1 (GValue.obj [("id", .str "x")]) [] "x" rfl rfl

/-- The two-page synthetic record of the pagination round-trip test: a
collection field with first page data a, b and a paging.next link L. -/
def c5record : GValue :=
  .obj [("id", .str "n1"),
        ("coll", .obj [("data", .arr [.obj [("id", .str "a")], .obj [("id", .str "b")]]),
                       ("paging", .obj [("cursors", .obj [("after", .str "AA")]),
                                        ("next", .str "L")])])]

/-- Page oracle of the round-trip test: link L yields the second page with
data c and no further paging. -/
def c5oracle : String → Option GValue :=
  fun l => if l = "L" then some (.obj [("data", .arr [.obj [("id", .str "c")]])]) else none

/-- The fully resolved record: the collection holds a, b, c in order and no
paging block remains. -/
def c5expected : GValue :=
  .obj [("id", .str "n1"),
        ("coll", .obj [("data", .arr [.obj [("id", .str "a")], .obj [("id", .str "b")],
                                      .obj [("id", .str "c")]])])]

/-- C5. Pagination merge round-trip: resolving the two-page synthetic
record through get_node (find_paging_links detaches the paging block and
queues the continuation; merge_page appends the second page's data to the
same container) produces the final list a, b, c in order, in one drained
page batch, and the emitted record contains no paging key anywhere. -/
theorem c5_pagination_roundtrip :
    get_node_model c5oracle 6 4 c5record = some (c5expected, [1]) ∧
    noPaging 6 c5expected = true := ⟨rfl, rfl⟩

theorem isRetryStatus_cases (r : TransportResult) (h : isRetryStatus r = true) :
    ∃ c, r = .httpStatus c ∧ (c = 408 ∨ c = 503 ∨ c = 504) := by
  cases r with
  | httpStatus c =>
    refine ⟨c, rfl, ?_⟩
    unfold isRetryStatus at h
    exact of_decide_eq_true h
  | ok body => exact absurd h (by simp [isRetryStatus])
  | connError => exact absurd h (by simp [isRetryStatus])
  | fbError code subcode tr => exact absurd h (by simp [isRetryStatus])

theorem perform_http_request_all_fail (transport : Nat → TransportResult) :
    ∀ (n t : Nat), t + n = get_errors_limit → 1 ≤ t →
    (∀ j, t ≤ j → j ≤ get_errors_limit → isRetryStatus (transport j) = true) →
    ∀ fuel, n < fuel →
    perform_http_request transport fuel t =
      some (.error (transport get_errors_limit), get_errors_limit)
  | 0, t, hsum, ht1, hretry, fuel, hfuel => by
    have ht : t = get_errors_limit := by omega
    subst ht
    cases fuel with
    | zero => omega
    | succ f =>
      obtain ⟨c, hc, hmem⟩ := isRetryStatus_cases _ (hretry get_errors_limit le_rfl le_rfl)
      unfold perform_http_request
      rw [hc]
      dsimp only
      rw [if_pos hmem, if_pos rfl]
  | n + 1, t, hsum, ht1, hretry, fuel, hfuel => by
    cases fuel with
    | zero => omega
    | succ f =>
      obtain ⟨c, hc, hmem⟩ := isRetryStatus_cases _ (hretry t le_rfl (by omega))
      unfold perform_http_request
      rw [hc]
      dsimp only
      rw [if_pos hmem, if_neg (by omega : ¬get_errors_limit = t)]
      exact perform_http_request_all_fail transport n (t + 1) (by omega) (by omega)
        (fun j hj1 hj2 => hretry j (by omega) hj2) f (by omega)

theorem perform_http_request_succeeds (transport : Nat → TransportResult)
    (body : GValue) (k : Nat) (hk1 : 1 ≤ k) (hk2 : k ≤ get_errors_limit)
    (hok : transport k = .ok body) :
    ∀ (fuel t : Nat), 1 ≤ t → t ≤ k → k - t < fuel →
    (∀ j, t ≤ j → j < k → isRetryStatus (transport j) = true) →
    perform_http_request transport fuel t = some (.ok body, k)
  | 0, t, _, _, hfuel, _ => by omega
  | f + 1, t, ht1, htk, hfuel, hretry => by
    by_cases hteq : t = k
    · subst hteq
      unfold perform_http_request
      rw [hok]
    · have htlt : t < k := by omega
      obtain ⟨c, hc, hmem⟩ := isRetryStatus_cases _ (hretry t le_rfl htlt)
      unfold perform_http_request
      rw [hc]
      dsimp only
      rw [if_pos hmem, if_neg (by omega : ¬get_errors_limit = t)]
      exact perform_http_request_succeeds transport body k hk1 hk2 hok f (t + 1)
        (by omega) (by omega) (by omega) (fun j hj1 hj2 => hretry j (by omega) hj2)

/-- C6. Retry ceiling: for a transport answering every request with a
retryable HTTP status (408, 503 or 504 with a non-JSON body), both
_perform_http_get and _perform_http_post issue exactly get_errors_limit
(ten) requests and then propagate the underlying error to the caller; for
a transport that succeeds on the k-th request (k at most the ceiling) after
retryable statuses, both return the response body after exactly k requests
without propagating any error. -/
theorem c6_retry_ceiling (t1 t2 : Nat → TransportResult) (k : Nat) (body : GValue)
    (h1 : ∀ j, 1 ≤ j → j ≤ get_errors_limit → isRetryStatus (t1 j) = true)
    (hk1 : 1 ≤ k) (hk2 : k ≤ get_errors_limit)
    (h2 : ∀ j, 1 ≤ j → j < k → isRetryStatus (t2 j) = true)
    (h2k : t2 k = .ok body) :
    perform_http_get t1 get_errors_limit =
      some (.error (t1 get_errors_limit), get_errors_limit) ∧
    perform_http_post t1 get_errors_limit =
      some (.error (t1 get_errors_limit), get_errors_limit) ∧
    perform_http_get t2 get_errors_limit = some (.ok body, k) ∧
    perform_http_post t2 get_errors_limit = some (.ok body, k) := by
  have hfail := perform_http_request_all_fail t1 (get_errors_limit - 1) 1
    (by decide) le_rfl h1 get_errors_limit (by decide)
  have hsucc := perform_http_request_succeeds t2 body k hk1 hk2 h2k
    get_errors_limit 1 le_rfl hk1 (by omega) h2
  exact ⟨hfail, hfail, hsucc, hsucc⟩

/-- Transport stub answering every request with a 503. -/
def c6transportFail : Nat → TransportResult := fun _ => .httpStatus 503

/-- Transport stub answering 503 twice, then a 200 body on the third try. -/
def c6transportFlaky : Nat → TransportResult :=
  fun j => if j < 3 then .httpStatus 503 else .ok (.str "payload")

/-- Witness for C6 at the two stub transports with k = 3. -/
theorem c6_retry_ceiling_witness :
    perform_http_get c6transportFail get_errors_limit =
      some (.error (c6transportFail get_errors_limit), get_errors_limit) ∧
    perform_http_post c6transportFail get_errors_limit =
      some (.error (c6transportFail get_errors_limit), get_errors_limit) ∧
    perform_http_get c6transportFlaky get_errors_limit = some (.ok (.str "payload"), 3) ∧
    perform_http_post c6transportFlaky get_errors_limit = some (.ok (.str "payload"), 3) :=
  c6_retry_ceiling c6transportFail c6transportFlaky 3 (.str "payload")
    (fun _ _ _ => rfl) (by decide) (by decide)
    (fun j _ hj => by simp [c6transportFlaky, if_pos hj, isRetryStatus])
    (by simp [c6transportFlaky])

/-- Definition table for the page-drain counterexample: node_batch_size 60
(larger than PAGE_BATCH_SIZE, as a definition is free to configure). -/
def c7defs : Defs := fun _ =>
  { default_edges := [], edges := [], edge_type := fun _ => "t",
    follow_edge := fun _ => true, node_batch_size := 60 }

/-- A record with 51 paginated collections, each carrying a pending
continuation link. -/
def c7graph : GValue :=
  .obj (("id", .str "n") :: (List.range 51).map (fun i =>
    ("c" ++ toString i,
      .obj [("data", .arr []), ("paging", .obj [("next", .str ("L" ++ toString i))])])))

/-- Page oracle answering every continuation with an empty final page. -/
def c7oracle : String → Option GValue := fun _ => some (.obj [("data", .arr [])])

/-- C7 counterexample. In the multi-node batch fetch path the pending-page
queue is drained with cap definition.node_batch_size, not the fixed
page-batch cap: with node_batch_size 60 and 51 pending continuations,
get_node_batch resolves all 51 in a single combined page request, more
than the cap of 50 the claim asserts for every page request. -/
theorem c7_drain_counterexample :
    (get_node_batch_model c7defs "t" c7oracle 4 3 ["n"] [("n", c7graph)]).map
        (fun p => p.2) = some [51] ∧
    ¬ (51 ≤ PAGE_BATCH_SIZE) := by
  constructor
  · decide
  · decide

theorem resolve_pages_sizes_le (oracle : String → Option GValue) (pfuel cap : Nat) :
    ∀ (fuel : Nat) (root : GValue) (q : List (String × Path))
      (res : GValue) (sizes : List Nat),
    resolve_pages oracle pfuel cap fuel root q = some (res, sizes) →
    sizes.all (fun x => decide (x ≤ cap)) = true
  | 0, root, q, res, sizes, h => by
    unfold resolve_pages at h
    by_cases hq : q.isEmpty
    · rw [if_pos hq] at h
      injection h with h2
      injection h2 with hres hsizes
      rw [← hsizes]
      rfl
    · rw [if_neg hq] at h
      exact absurd h (by simp)
  | f + 1, root, q, res, sizes, h => by
    unfold resolve_pages at h
    by_cases hq : q.isEmpty
    · rw [if_pos hq] at h
      injection h with h2
      injection h2 with hres hsizes
      rw [← hsizes]
      rfl
    · rw [if_neg hq] at h
      dsimp only at h
      cases hb : get_page_batch_model oracle pfuel root (drainTake cap q).1 with
      | none => rw [hb] at h; simp at h
      | some p2 =>
        obtain ⟨root2, new⟩ := p2
        rw [hb] at h
        dsimp only at h
        cases hr : resolve_pages oracle pfuel cap f root2 ((drainTake cap q).2 ++ new) with
        | none => rw [hr] at h; simp at h
        | some pr =>
          obtain ⟨res2, sizes2⟩ := pr
          rw [hr] at h
          dsimp only at h
          injection h with h2
          injection h2 with hres hsizes
          rw [← hsizes, List.all_cons]
          have hle : (drainTake cap q).1.length ≤ cap := by
            unfold drainTake
            rw [List.length_take]
            omega
          rw [decide_eq_true hle, Bool.true_and]
          exact resolve_pages_sizes_le oracle pfuel cap f root2
            ((drainTake cap q).2 ++ new) res2 sizes2 hr

/-- C7 amended. Every drain of the pending-page queue pops exactly
min(cap, queue length) continuations for one combined request, where the
cap is PAGE_BATCH_SIZE (50) in the single-node fetch path (get_node) but
definition.node_batch_size in the multi-node batch fetch path
(get_node_batch): every page-request size logged by the single path is at
most 50, and every size logged by the batch path is at most the type's
node_batch_size — not the fixed 50 the claim asserts for both paths. -/
theorem c7_drain_amended (cap : Nat) (q : List (String × Path))
    (oracle : String → Option GValue) (pfuel lfuel : Nat) (g : GValue)
    (defs : Defs) (dn : String) (node_ids : List String)
    (response : List (String × GValue)) (res1 : GValue) (sizes1 : List Nat)
    (out : List (String × GValue)) (sizes2 : List Nat)
    (h1 : get_node_model oracle pfuel lfuel g = some (res1, sizes1))
    (h2 : get_node_batch_model defs dn oracle pfuel lfuel node_ids response =
      some (out, sizes2)) :
    (drainTake cap q).1.length = min cap q.length ∧
    (drainTake cap q).1 ++ (drainTake cap q).2 = q ∧
    sizes1.all (fun x => decide (x ≤ PAGE_BATCH_SIZE)) = true ∧
    sizes2.all (fun x => decide (x ≤ (defs dn).node_batch_size)) = true := by
  refine ⟨?_, ?_, ?_, ?_⟩
  · unfold drainTake
    rw [List.length_take]
    omega
  · unfold drainTake
    exact List.take_append_drop _ q
  · unfold get_node_model at h1
    cases hf : find_paging_links pfuel g with
    | none => rw [hf] at h1; simp at h1
    | some p =>
      obtain ⟨g2, q2⟩ := p
      rw [hf] at h1
      dsimp only at h1
      exact resolve_pages_sizes_le oracle pfuel PAGE_BATCH_SIZE lfuel g2 q2 res1 sizes1 h1
  · unfold get_node_batch_model at h2
    cases hs : batch_scan pfuel node_ids response with
    | none => rw [hs] at h2; simp at h2
    | some p =>
      obtain ⟨resp2, q2⟩ := p
      rw [hs] at h2
      dsimp only at h2
      cases hr : resolve_pages oracle pfuel (defs dn).node_batch_size lfuel (.obj resp2) q2 with
      | none => rw [hr] at h2; simp at h2
      | some pr =>
        obtain ⟨res2, sz⟩ := pr
        rw [hr] at h2
        dsimp only at h2
        cases res2 with
        | obj out2 =>
          injection h2 with h3
          injection h3 with hout hsz
          rw [← hsz]
          exact resolve_pages_sizes_le oracle pfuel (defs dn).node_batch_size lfuel
            (.obj resp2) q2 (.obj out2) sz hr
        | null => simp at h2
        | bool b => simp at h2
        | num n => simp at h2
        | str st => simp at h2
        | arr xs => simp at h2

/-- Witness for the amended C7: the round-trip record on the single path
and an empty batch on the batch path. -/
theorem c7_drain_amended_witness :
    (drainTake 50 [("L", [PathStep.key "data"])]).1.length =
      min 50 [("L", [PathStep.key "data"])].length ∧
    (drainTake 50 [("L", [PathStep.key "data"])]).1 ++
      (drainTake 50 [("L", [PathStep.key "data"])]).2 = [("L", [PathStep.key "data"])] ∧
    ([1] : List Nat).all (fun x => decide (x ≤ PAGE_BATCH_SIZE)) = true ∧
    ([] : List Nat).all (fun x => decide (x ≤ (c7defs "t").node_batch_size)) = true :=
  c7_drain_amended 50 [("L", [PathStep.key "data"])] c5oracle 6 4 c5record
    c7defs "t" [] [] c5expected [1] [] [] rfl rfl

theorem mapM_option_isSome {α β : Type} (f : α → Option β) :
    ∀ l : List α, (l.mapM f).isSome = l.all (fun a => (f a).isSome)
  | [] => rfl
  | a :: l => by
    rw [List.mapM_cons, List.all_cons, ← mapM_option_isSome f l]
    cases f a <;> cases l.mapM f <;> rfl

theorem all_congr_fn {α : Type} : ∀ (l : List α) (f g : α → Bool),
    (∀ x ∈ l, f x = g x) → l.all f = l.all g
  | [], _, _, _ => rfl
  | a :: l, f, g, h => by
    rw [List.all_cons, List.all_cons, h a (List.mem_cons_self a l),
      all_congr_fn l f g (fun x hx => h x (List.mem_cons_of_mem a hx))]

theorem fpl_isSome_eq_pagingOk : ∀ (fuel : Nat) (g : GValue),
    (find_paging_links fuel g).isSome = pagingOk fuel g
  | 0, _ => rfl
  | f + 1, g => by
    cases g with
    | null => rfl
    | bool b => rfl
    | num n => rfl
    | str s => rfl
    | arr xs =>
      have h1 : (find_paging_links (f + 1) (.arr xs)).isSome
          = (xs.mapM (find_paging_links f)).isSome := by
        unfold find_paging_links
        cases xs.mapM (find_paging_links f) <;> rfl
      have h2 : pagingOk (f + 1) (.arr xs) = xs.all (pagingOk f) := rfl
      rw [h1, h2, mapM_option_isSome]
      exact all_congr_fn xs _ _ (fun x _ => fpl_isSome_eq_pagingOk f x)
    | obj fs =>
      have hdef1 : find_paging_links (f + 1) (.obj fs)
          = (if ((lookupList fs "paging").isSome && (lookupList fs "data").isNone) = true
            then none
            else do
              let results ← (fs.filter (fun (p : String × GValue) => p.1 ≠ "paging")).mapM
                (fun (p : String × GValue) => do
                  let r ← find_paging_links f p.2
                  pure (p.1, r))
              pure (GValue.obj (results.map (fun q => (q.1, q.2.1))),
                pagingNextOf fs ++ (results.map (fun q => underKey q.1 q.2.2)).flatten)) := rfl
      have hdef2 : pagingOk (f + 1) (.obj fs)
          = if ((lookupList fs "paging").isSome && (lookupList fs "data").isNone) = true
            then false
            else (fs.filter (fun (p : String × GValue) => p.1 ≠ "paging")).all
              (fun p => pagingOk f p.2) := rfl
      by_cases hbad :
          ((lookupList fs "paging").isSome && (lookupList fs "data").isNone) = true
      · rw [hdef1, hdef2, if_pos hbad, if_pos hbad]
        rfl
      · rw [hdef1, hdef2, if_neg hbad, if_neg hbad]
        have h1 : ((do
              let results ← (fs.filter (fun (p : String × GValue) => p.1 ≠ "paging")).mapM
                (fun (p : String × GValue) => do
                  let r ← find_paging_links f p.2
                  pure (p.1, r))
              pure (GValue.obj (results.map (fun q => (q.1, q.2.1))),
                pagingNextOf fs ++ (results.map (fun q => underKey q.1 q.2.2)).flatten) :
            Option (GValue × List (String × Path))).isSome)
            = ((fs.filter (fun (p : String × GValue) => p.1 ≠ "paging")).mapM
                (fun (p : String × GValue) => do
                  let r ← find_paging_links f p.2
                  pure (p.1, r))).isSome := by
          cases (fs.filter (fun (p : String × GValue) => p.1 ≠ "paging")).mapM
              (fun (p : String × GValue) => do
                let r ← find_paging_links f p.2
                pure (p.1, r)) <;> rfl
        rw [h1, mapM_option_isSome]
        refine all_congr_fn _ _ _ (fun p _ => ?_)
        rw [← fpl_isSome_eq_pagingOk f p.2]
        cases find_paging_links f p.2 <;> rfl

/-- A fragment whose outer paging block (with a data sibling) hides an
inner dict that has a paging key and no data sibling: the inner dict is
inside the detached block, so the scan never visits it. -/
def c9bad : GValue :=
  .obj [("paging", .obj [("x", .obj [("paging", .obj [])])]), ("data", .arr [])]

/-- C9 counterexample. The claim asserts that find_paging_links fails on
every fragment containing, at any nesting depth, a dict with a paging key
and no data sibling. c9bad contains such a dict (inside its detached
paging block), yet find_paging_links succeeds on it: the assert is only
evaluated on visited dicts, and detached paging blocks are not visited. -/
theorem c9_assert_counterexample :
    containsPagingWithoutData 5 c9bad = true ∧
    (find_paging_links 5 c9bad).isSome = true := ⟨rfl, rfl⟩

/-- C9 amended. find_paging_links succeeds on a fragment exactly when
every dict it visits that carries a paging key has a data sibling, where
the visit recursion skips the contents of each detached paging block
(pagingOk); dicts nested inside a paging block are never checked. Stated
for every recursion fuel: both sides read the tree through the same fuel. -/
theorem c9_assert_amended (fuel : Nat) (g : GValue) :
    (find_paging_links fuel g).isSome = pagingOk fuel g :=
  fpl_isSome_eq_pagingOk fuel g

theorem setKey_keys {α : Type} : ∀ (fs : List (String × α)) (k : String) (v : α),
    (setKey fs k v).map Prod.fst = fs.map Prod.fst
  | [], _, _ => rfl
  | (k2, v2) :: rest, k, v => by
    have hs0 : setKey ((k2, v2) :: rest) k v =
        if k2 = k then (k2, v) :: rest else (k2, v2) :: setKey rest k v := rfl
    rw [hs0]
    by_cases h : k2 = k
    · rw [if_pos h]
      rfl
    · rw [if_neg h]
      simp only [List.map_cons]
      rw [setKey_keys rest k v]

theorem lookup_setKey_isSome {α : Type} :
    ∀ (fs : List (String × α)) (k : String) (v : α) (j : String),
    (lookupList (setKey fs k v) j).isSome = (lookupList fs j).isSome
  | [], _, _, _ => rfl
  | (k2, v2) :: rest, k, v, j => by
    have hs0 : setKey ((k2, v2) :: rest) k v =
        if k2 = k then (k2, v) :: rest else (k2, v2) :: setKey rest k v := rfl
    by_cases h : k2 = k
    · have hs : setKey ((k2, v2) :: rest) k v = (k2, v) :: rest := by
        rw [hs0, if_pos h]
      rw [hs]
      unfold lookupList
      by_cases hj : k2 = j
      · rw [if_pos hj, if_pos hj]
        rfl
      · rw [if_neg hj, if_neg hj]
    · have hs : setKey ((k2, v2) :: rest) k v = (k2, v2) :: setKey rest k v := by
        rw [hs0, if_neg h]
      rw [hs]
      unfold lookupList
      by_cases hj : k2 = j
      · rw [if_pos hj, if_pos hj]
      · rw [if_neg hj, if_neg hj]
        exact lookup_setKey_isSome rest k v j

theorem lookup_isSome_mem {α : Type} :
    ∀ (fs : List (String × α)) (k : String),
    (lookupList fs k).isSome = true ↔ k ∈ fs.map Prod.fst
  | [], k => by simp [lookupList]
  | (k2, v) :: rest, k => by
    unfold lookupList
    by_cases h : k2 = k
    · rw [if_pos h]
      simp [h]
    · rw [if_neg h]
      rw [lookup_isSome_mem rest k]
      simp only [List.map_cons, List.mem_cons]
      constructor
      · exact Or.inr
      · rintro (rfl | hm)
        · exact absurd rfl h
        · exact hm

theorem setPath_obj_keys (fs : List (String × GValue)) (step : PathStep) (p : Path)
    (v r : GValue) (h : GValue.setPath (.obj fs) (step :: p) v = some r) :
    ∃ fs2, r = .obj fs2 ∧ fs2.map Prod.fst = fs.map Prod.fst := by
  cases step with
  | key k =>
    unfold GValue.setPath at h
    cases hl : lookupList fs k with
    | none => rw [hl] at h; simp at h
    | some cur =>
      rw [hl] at h
      dsimp only at h
      cases hsp : GValue.setPath cur p v with
      | none => rw [hsp] at h; simp at h
      | some cur2 =>
        rw [hsp] at h
        dsimp only at h
        exact ⟨setKey fs k cur2, (Option.some_inj.mp h).symm, setKey_keys fs k cur2⟩
  | idx i =>
    unfold GValue.setPath at h
    simp at h

theorem merge_page_root_pages_path (page : GValue) (tp : Path) :
    ∀ w ∈ merge_page_root_pages page tp, w.2 = tp := by
  intro w hw
  unfold merge_page_root_pages at hw
  cases hn : (page.get? "paging").bind (fun pg => pg.get? "next") with
  | none => rw [hn] at hw; exact absurd hw (List.not_mem_nil w)
  | some nv =>
    rw [hn] at hw
    cases nv with
    | str l =>
      rcases List.mem_singleton.mp hw with rfl
      rfl
    | null => exact absurd hw (List.not_mem_nil w)
    | bool b => exact absurd hw (List.not_mem_nil w)
    | num n => exact absurd hw (List.not_mem_nil w)
    | arr xs => exact absurd hw (List.not_mem_nil w)
    | obj fs2 => exact absurd hw (List.not_mem_nil w)

theorem merge_page_obj_keys (pfuel : Nat) (page : GValue) (fs : List (String × GValue))
    (step : PathStep) (p : Path) (root2 : GValue) (new : List (String × Path))
    (h : merge_page pfuel page (.obj fs) (step :: p) = some (root2, new)) :
    (∃ fs2, root2 = .obj fs2 ∧ fs2.map Prod.fst = fs.map Prod.fst) ∧
    ∀ w ∈ new, w.2 ≠ [] := by
  unfold merge_page at h
  cases hd : page.get? "data" with
  | none => rw [hd] at h; simp at h
  | some dataVal =>
    rw [hd] at h
    dsimp only at h
    cases hf : find_paging_links pfuel dataVal with
    | none => rw [hf] at h; simp at h
    | some pr =>
      obtain ⟨stripped, nested⟩ := pr
      rw [hf] at h
      dsimp only at h
      cases stripped with
      | arr items =>
        cases hg : GValue.getPath (.obj fs) (step :: p) with
        | none => rw [hg] at h; simp at h
        | some gv =>
          rw [hg] at h
          cases gv with
          | arr old =>
            dsimp only at h
            cases hsp : GValue.setPath (.obj fs) (step :: p) (.arr (old ++ items)) with
            | none => rw [hsp] at h; simp at h
            | some root3 =>
              rw [hsp] at h
              dsimp only at h
              injection h with h2
              injection h2 with hroot hnew
              obtain ⟨fs2, hfs2, hkeys⟩ := setPath_obj_keys fs step p _ root3 hsp
              refine ⟨⟨fs2, hroot ▸ hfs2, hkeys⟩, ?_⟩
              intro w hw
              rw [← hnew] at hw
              rcases List.mem_append.mp hw with hw | hw
              · rw [merge_page_root_pages_path page (step :: p) w hw]
                exact List.cons_ne_nil step p
              · rcases List.mem_map.mp hw with ⟨w0, _, rfl⟩
                exact List.cons_ne_nil step _
          | null => simp at h
          | bool b => simp at h
          | num n => simp at h
          | str s2 => simp at h
          | obj fs2 => simp at h
      | null => simp at h
      | bool b => simp at h
      | num n => simp at h
      | str s2 => simp at h
      | obj fs2 => simp at h

theorem get_page_batch_keys (oracle : String → Option GValue) (pfuel : Nat) :
    ∀ (pages : List (String × Path)) (fs : List (String × GValue))
      (root2 : GValue) (new : List (String × Path)),
    (∀ w ∈ pages, w.2 ≠ []) →
    get_page_batch_model oracle pfuel (.obj fs) pages = some (root2, new) →
    (∃ fs2, root2 = .obj fs2 ∧ fs2.map Prod.fst = fs.map Prod.fst) ∧
    ∀ w ∈ new, w.2 ≠ []
  | [], fs, root2, new, hp, h => by
    unfold get_page_batch_model at h
    injection h with h2
    injection h2 with hr hn
    refine ⟨⟨fs, hr.symm, rfl⟩, ?_⟩
    intro w hw
    rw [← hn] at hw
    exact absurd hw (List.not_mem_nil w)
  | (link, path) :: rest, fs, root2, new, hp, h => by
    unfold get_page_batch_model at h
    cases ho : oracle link with
    | none =>
      rw [ho] at h
      exact get_page_batch_keys oracle pfuel rest fs root2 new
        (fun w hw => hp w (List.mem_cons_of_mem _ hw)) h
    | some page =>
      rw [ho] at h
      dsimp only at h
      obtain ⟨step, p, rfl⟩ : ∃ s p2, path = s :: p2 := by
        cases path with
        | nil => exact absurd rfl (hp (link, []) (List.mem_cons_self _ _))
        | cons a b => exact ⟨a, b, rfl⟩
      cases hm : merge_page pfuel page (.obj fs) (step :: p) with
      | none => rw [hm] at h; simp at h
      | some pr =>
        obtain ⟨rootm, newm⟩ := pr
        rw [hm] at h
        dsimp only at h
        obtain ⟨⟨fsm, hfsm, hkeysm⟩, hnewm⟩ :=
          merge_page_obj_keys pfuel page fs step p rootm newm hm
        subst hfsm
        cases hrec : get_page_batch_model oracle pfuel (.obj fsm) rest with
        | none => rw [hrec] at h; simp at h
        | some pr2 =>
          obtain ⟨root3, more⟩ := pr2
          rw [hrec] at h
          dsimp only at h
          injection h with h2
          injection h2 with hr hn
          obtain ⟨⟨fs3, hfs3, hk3⟩, hmore⟩ := get_page_batch_keys oracle pfuel rest fsm
            root3 more (fun w hw => hp w (List.mem_cons_of_mem _ hw)) hrec
          refine ⟨⟨fs3, hr ▸ hfs3, hk3.trans hkeysm⟩, ?_⟩
          intro w hw
          rw [← hn] at hw
          rcases List.mem_append.mp hw with hw | hw
          · exact hnewm w hw
          · exact hmore w hw

theorem resolve_pages_obj_keys (oracle : String → Option GValue) (pfuel cap : Nat) :
    ∀ (fuel : Nat) (fs : List (String × GValue)) (q : List (String × Path))
      (res : GValue) (sizes : List Nat),
    (∀ w ∈ q, w.2 ≠ []) →
    resolve_pages oracle pfuel cap fuel (.obj fs) q = some (res, sizes) →
    ∃ fs2, res = .obj fs2 ∧ fs2.map Prod.fst = fs.map Prod.fst
  | 0, fs, q, res, sizes, hq, h => by
    unfold resolve_pages at h
    by_cases he : q.isEmpty
    · rw [if_pos he] at h
      injection h with h2
      injection h2 with hr hs
      exact ⟨fs, hr.symm, rfl⟩
    · rw [if_neg he] at h
      exact absurd h (by simp)
  | f + 1, fs, q, res, sizes, hq, h => by
    unfold resolve_pages at h
    by_cases he : q.isEmpty
    · rw [if_pos he] at h
      injection h with h2
      injection h2 with hr hs
      exact ⟨fs, hr.symm, rfl⟩
    · rw [if_neg he] at h
      dsimp only at h
      cases hb : get_page_batch_model oracle pfuel (.obj fs) (drainTake cap q).1 with
      | none => rw [hb] at h; simp at h
      | some p2 =>
        obtain ⟨root2, new⟩ := p2
        rw [hb] at h
        dsimp only at h
        have hq1 : ∀ w ∈ (drainTake cap q).1, w.2 ≠ [] :=
          fun w hw => hq w (List.take_subset _ q hw)
        have hq2 : ∀ w ∈ (drainTake cap q).2, w.2 ≠ [] :=
          fun w hw => hq w (List.drop_subset _ q hw)
        obtain ⟨⟨fs2, hfs2, hkeys2⟩, hnew⟩ :=
          get_page_batch_keys oracle pfuel (drainTake cap q).1 fs root2 new hq1 hb
        subst hfs2
        cases hr : resolve_pages oracle pfuel cap f (.obj fs2) ((drainTake cap q).2 ++ new) with
        | none => rw [hr] at h; simp at h
        | some pr =>
          obtain ⟨res2, sz⟩ := pr
          rw [hr] at h
          dsimp only at h
          injection h with h2
          injection h2 with hres hsz
          obtain ⟨fs3, hfs3, hk3⟩ := resolve_pages_obj_keys oracle pfuel cap f fs2 _ res2 sz
            (fun w hw => (List.mem_append.mp hw).elim (hq2 w) (hnew w)) hr
          exact ⟨fs3, hres ▸ hfs3, hk3.trans hkeys2⟩

theorem batch_scan_keys (pfuel : Nat) :
    ∀ (ids : List String) (response resp2 : List (String × GValue))
      (links : List (String × Path)),
    batch_scan pfuel ids response = some (resp2, links) →
    resp2.map Prod.fst = response.map Prod.fst ∧ ∀ w ∈ links, w.2 ≠ []
  | [], response, resp2, links, h => by
    unfold batch_scan at h
    injection h with h2
    injection h2 with hr hl
    refine ⟨hr ▸ rfl, ?_⟩
    intro w hw
    rw [← hl] at hw
    exact absurd hw (List.not_mem_nil w)
  | i :: rest, response, resp2, links, h => by
    unfold batch_scan at h
    cases hl : lookupList response i with
    | none =>
      rw [hl] at h
      exact batch_scan_keys pfuel rest response resp2 links h
    | some g =>
      rw [hl] at h
      dsimp only at h
      cases hf : find_paging_links pfuel g with
      | none => rw [hf] at h; simp at h
      | some pr =>
        obtain ⟨g2, l1⟩ := pr
        rw [hf] at h
        dsimp only at h
        cases hb : batch_scan pfuel rest (setKey response i g2) with
        | none => rw [hb] at h; simp at h
        | some pr2 =>
          obtain ⟨resp3, l2⟩ := pr2
          rw [hb] at h
          dsimp only at h
          injection h with h2
          injection h2 with hr hl2
          obtain ⟨hkeys, hl2ne⟩ := batch_scan_keys pfuel rest (setKey response i g2)
            resp3 l2 hb
          refine ⟨?_, ?_⟩
          · rw [← hr]
            exact hkeys.trans (setKey_keys response i g2)
          · intro w hw
            rw [← hl2] at hw
            rcases List.mem_append.mp hw with hw | hw
            · rcases List.mem_map.mp hw with ⟨w0, _, rfl⟩
              exact List.cons_ne_nil _ _
            · exact hl2ne w hw

theorem batch_scan_filter (pfuel : Nat) :
    ∀ (ids : List String) (response : List (String × GValue)),
    batch_scan pfuel ids response =
      batch_scan pfuel (ids.filter (fun i => (lookupList response i).isSome)) response
  | [], response => rfl
  | i :: rest, response => by
    rw [List.filter_cons]
    cases hl : lookupList response i with
    | none =>
      rw [if_neg (show ¬((none : Option GValue).isSome = true) from by simp)]
      have hstep : batch_scan pfuel (i :: rest) response = batch_scan pfuel rest response := by
        conv_lhs => unfold batch_scan
        rw [hl]
      rw [hstep]
      exact batch_scan_filter pfuel rest response
    | some g =>
      rw [if_pos (show (some g).isSome = true from rfl)]
      unfold batch_scan
      rw [hl]
      dsimp only
      cases hf : find_paging_links pfuel g with
      | none => rfl
      | some pr =>
        obtain ⟨g2, l1⟩ := pr
        dsimp only
        have hpred : rest.filter (fun j => (lookupList response j).isSome)
            = rest.filter (fun j => (lookupList (setKey response i g2) j).isSome) :=
          List.filter_congr (fun x _ => (lookup_setKey_isSome response i g2 x).symm)
        rw [show batch_scan pfuel rest (setKey response i g2)
            = batch_scan pfuel (rest.filter (fun j => (lookupList response j).isSome))
                (setKey response i g2) from
          (batch_scan_filter pfuel rest (setKey response i g2)).trans
            (by rw [← hpred])]

/-- C10. Missing ids in a multi-node batch fetch: when the remote response
map omits some requested ids (and contains only requested ids), the mapping
get_node_batch returns has exactly the requested ids present in the
response as its keys; each missing id is skipped silently — the result and
the whole computation are identical to a run over only the present ids, so
a missing id produces no record and no error and its pagination is never
scanned. -/
theorem c10_missing_ids (defs : Defs) (dn : String) (oracle : String → Option GValue)
    (pfuel lfuel : Nat) (node_ids : List String) (response : List (String × GValue))
    (out : List (String × GValue)) (sizes : List Nat)
    (h : get_node_batch_model defs dn oracle pfuel lfuel node_ids response =
      some (out, sizes))
    (hsub : ∀ i ∈ response.map Prod.fst, i ∈ node_ids) :
    out.map Prod.fst = response.map Prod.fst ∧
    (out.map Prod.fst).toFinset =
      (node_ids.filter (fun i => decide (i ∈ response.map Prod.fst))).toFinset ∧
    get_node_batch_model defs dn oracle pfuel lfuel node_ids response =
      get_node_batch_model defs dn oracle pfuel lfuel
        (node_ids.filter (fun i => (lookupList response i).isSome)) response := by
  have hfilter : get_node_batch_model defs dn oracle pfuel lfuel node_ids response =
      get_node_batch_model defs dn oracle pfuel lfuel
        (node_ids.filter (fun i => (lookupList response i).isSome)) response := by
    unfold get_node_batch_model
    rw [← batch_scan_filter pfuel node_ids response]
  unfold get_node_batch_model at h
  cases hs : batch_scan pfuel node_ids response with
  | none => rw [hs] at h; simp at h
  | some pr =>
    obtain ⟨resp2, q⟩ := pr
    rw [hs] at h
    dsimp only at h
    obtain ⟨hkeys2, hqne⟩ := batch_scan_keys pfuel node_ids response resp2 q hs
    cases hr : resolve_pages oracle pfuel (defs dn).node_batch_size lfuel (.obj resp2) q with
    | none => rw [hr] at h; simp at h
    | some pr2 =>
      obtain ⟨res, sz⟩ := pr2
      rw [hr] at h
      dsimp only at h
      obtain ⟨fs3, hfs3, hk3⟩ := resolve_pages_obj_keys oracle pfuel
        (defs dn).node_batch_size lfuel resp2 q res sz hqne hr
      subst hfs3
      dsimp only at h
      injection h with h2
      injection h2 with hout hsz
      have hkeys : out.map Prod.fst = response.map Prod.fst := by
        rw [← hout]
        exact hk3.trans hkeys2
      refine ⟨hkeys, ?_, hfilter⟩
      apply Finset.ext
      intro i
      rw [List.mem_toFinset, List.mem_toFinset, List.mem_filter, hkeys]
      simp only [decide_eq_true_eq]
      constructor
      · intro hi
        exact ⟨hsub i hi, hi⟩
      · intro hi
        exact hi.2

/-- Response of the missing-id witness: only node a is present. -/
def c10response : List (String × GValue) := [("a", .obj [("id", .str "a")])]

/-- Witness for C10: ids a and b requested, only a answered — b is dropped
with no record and no effect on the computation. -/
theorem c10_missing_ids_witness :
    ([("a", GValue.obj [("id", .str "a")])].map Prod.fst = c10response.map Prod.fst) ∧
    (([("a", GValue.obj [("id", .str "a")])].map Prod.fst).toFinset =
      ((["a", "b"].filter (fun i => decide (i ∈ c10response.map Prod.fst)))).toFinset) ∧
    get_node_batch_model c7defs "t" c7oracle 3 2 ["a", "b"] c10response =
      get_node_batch_model c7defs "t" c7oracle 3 2
        (["a", "b"].filter (fun i => (lookupList c10response i).isSome)) c10response :=
  c10_missing_ids c7defs "t" c7oracle 3 2 ["a", "b"] c10response
    [("a", GValue.obj [("id", .str "a")])] [] rfl (by decide)

end Fbarc
